import Mathlib

/-!
Verification of the region quadtree in `pytree/SpatialPartioningtree/quadtree/_quadtree.py`
(repository RESPULTE/PyTree).

The quadtree stores its nodes in a flat, growable pool (`all_quad_node`) with
index-based parent/child links and a free list threaded through the
`first_child` field of freed slots.  This file shallowly embeds the pool, the
allocator (`set_branch`, `set_free_quad_node`), the queries (`get_bbox`,
`find_quad_node`, `find_leaves`) and the cleanup pass (`clean_up`), and proves
the specified properties about them.

The helper module `_quadnode.py` and the geometry utilities (`BBox`,
`split_box`, `is_inscribed`, `is_intersecting`) are not part of the sources;
they are modelled from the specification, as marked on each such definition.
Box coordinates are embedded as rationals so that halving a box is exact.
-/

namespace PyTree

/-- Modelled from the spec: the geometry utilities' bounding box
`BBox(x, y, w, h)` — a plain record of origin and extent.  Coordinates are
rationals so that the 4-way quadrant split is exact. -/
structure BBox where
  x : ℚ
  y : ℚ
  w : ℚ
  h : ℚ
deriving DecidableEq

/-- Modelled from the spec: the deterministic 4-way split of a box into equal
quadrants, in a fixed, stable order (quadrant 0 at the origin corner, then
right, then down, then diagonal). -/
def split_box (b : BBox) : List BBox :=
  [ ⟨b.x, b.y, b.w / 2, b.h / 2⟩,
    ⟨b.x + b.w / 2, b.y, b.w / 2, b.h / 2⟩,
    ⟨b.x, b.y + b.h / 2, b.w / 2, b.h / 2⟩,
    ⟨b.x + b.w / 2, b.y + b.h / 2, b.w / 2, b.h / 2⟩ ]

/-- Modelled from the spec: the box-in-box test — `inner` lies fully inside
`outer` (boundary contact allowed). -/
def is_inscribed (inner outer : BBox) : Bool :=
  decide (outer.x ≤ inner.x) && decide (inner.x + inner.w ≤ outer.x + outer.w) &&
  decide (outer.y ≤ inner.y) && decide (inner.y + inner.h ≤ outer.y + outer.h)

/-- Modelled from the spec: the box-overlap test — the interiors of the two
boxes meet. -/
def is_intersecting (a b : BBox) : Bool :=
  decide (a.x < b.x + b.w) && decide (b.x < a.x + a.w) &&
  decide (a.y < b.y + b.h) && decide (b.y < a.y + a.h)

/-- Area of a box, the key used by `find_quad_node` to pick its result. -/
def area (b : BBox) : ℚ := b.w * b.h

/-- Modelled from the spec: the `QuadNode` record of `_quadnode.py` — one slot
of the node pool.  `first_child` is the base index of the four contiguous
children for a branch, `-1` for a leaf, and the free-list link while the slot
is on the free list; `parent_index` is the owning node's index (the root's is
`0`); `total_entity` is the entity count of a leaf and the branch sentinel
`-1`; `in_use` is false exactly while the slot sits on the free list. -/
structure QuadNode where
  first_child : Int := -1
  parent_index : Nat := 0
  total_entity : Int := 0
  in_use : Bool := true
deriving DecidableEq

namespace QuadNode

/-- `is_leaf` as specified: `total_entity ≥ 0`. -/
def is_leaf (n : QuadNode) : Bool := decide (0 ≤ n.total_entity)

/-- `is_branch` as specified: `total_entity = -1`. -/
def is_branch (n : QuadNode) : Bool := decide (n.total_entity = -1)

/-- Modelled from the spec: `QuadNode.set_free(next_free)` — marks the slot
unused and stores the free-list link in the reused `first_child` field. -/
def set_free (n : QuadNode) (next_free : Int) : QuadNode :=
  { n with first_child := next_free, in_use := false }

/-- Modelled from the spec: the reinitialization `update(first_child=-1,
total_entity=0, parent_index=qindex)` applied to each slot of a reused
free-list block — the slot returns to the defaults of a fresh child
(`in_use = true` included). -/
def update (parent : Nat) : QuadNode :=
  { first_child := -1, parent_index := parent, total_entity := 0, in_use := true }

end QuadNode

/-- The quadtree: the whole-tree box, the configured depth cap, the free-list
head `_free_quad_node_index`, the in-use counter `_num_quad_node_in_use`, and
the node pool `all_quad_node`. -/
structure QuadTree where
  bbox : BBox
  max_depth : Nat
  free_quad_node_index : Int
  num_quad_node_in_use : Int
  all_quad_node : List QuadNode
deriving DecidableEq

/-- `QuadTree.__init__`: a box anchored at the origin with the given size, an
empty free list, and a pool holding only the root slot. -/
def QuadTree.init (size : ℚ × ℚ) (max_depth : Nat := 12) : QuadTree :=
  { bbox := ⟨0, 0, size.1, size.2⟩
    max_depth := max_depth
    free_quad_node_index := -1
    num_quad_node_in_use := 1
    all_quad_node := [{}] }

instance : Inhabited QuadNode := ⟨{}⟩

/-- Pool lookup at a natural index, with the default node out of range
(only used at indices known to be in range). -/
def getN (l : List QuadNode) (i : Nat) : QuadNode := l.getD i default

/-- Pool update at a natural index (`List.set`: no-op out of range). -/
def setN (l : List QuadNode) (i : Nat) (a : QuadNode) : List QuadNode := l.set i a

/-- Python list-index normalization: a valid index `i` (with negative wrap) is
mapped to the corresponding natural offset; out-of-range indices give `none`
(an `IndexError`). -/
def pyNorm (n : Nat) (i : Int) : Option Nat :=
  if 0 ≤ i ∧ i < (n : Int) then some i.toNat
  else if -(n : Int) ≤ i ∧ i < 0 then some (i + n).toNat
  else none

/-- `self.all_quad_node[i]` with Python indexing semantics. -/
def pyGet (l : List QuadNode) (i : Int) : Option QuadNode :=
  (pyNorm l.length i).map (getN l)

/-- Writing through `self.all_quad_node[i]` with Python indexing semantics. -/
def pySet (l : List QuadNode) (i : Int) (a : QuadNode) : Option (List QuadNode) :=
  (pyNorm l.length i).map fun j => setN l j a

/-- The Python exceptions the embedded operations can raise. -/
inductive QErr where
  | valueError
  | indexError
  | notImplementedError
  | typeError
deriving DecidableEq

/-- `QuadTree.set_branch(qnode, qindex)`: converts the leaf at `qindex` into a
branch.  The passed `qnode` object is pool slot `qindex`, so its field writes
are writes to that slot.  Sets the branch sentinel, bumps the in-use counter
by 4, and either appends 4 fresh children (empty free list) or reinitializes
the block at the free-list head and advances the head to the link stored in
that block's first slot. -/
def set_branch (t : QuadTree) (qindex : Nat) : Option QuadTree :=
  match pyGet t.all_quad_node (qindex : Int) with
  | none => none
  | some qn0 =>
    let nodes1 := setN t.all_quad_node qindex { qn0 with total_entity := -1 }
    let inUse := t.num_quad_node_in_use + 4
    if t.free_quad_node_index = -1 then
      let base := nodes1.length
      let nodes2 := setN nodes1 qindex { getN nodes1 qindex with first_child := (base : Int) }
      let nodes3 := nodes2 ++
        [ { parent_index := qindex }, { parent_index := qindex },
          { parent_index := qindex }, { parent_index := qindex } ]
      some { t with all_quad_node := nodes3, num_quad_node_in_use := inUse }
    else
      let nodes2 := setN nodes1 qindex
        { getN nodes1 qindex with first_child := t.free_quad_node_index }
      match pyGet nodes2 t.free_quad_node_index with
      | none => none
      | some freeNode =>
        let nextFree := freeNode.first_child
        match pySet nodes2 (t.free_quad_node_index + 0) (QuadNode.update qindex) with
        | none => none
        | some m0 =>
        match pySet m0 (t.free_quad_node_index + 1) (QuadNode.update qindex) with
        | none => none
        | some m1 =>
        match pySet m1 (t.free_quad_node_index + 2) (QuadNode.update qindex) with
        | none => none
        | some m2 =>
        match pySet m2 (t.free_quad_node_index + 3) (QuadNode.update qindex) with
        | none => none
        | some m3 =>
          some { t with all_quad_node := m3, num_quad_node_in_use := inUse,
                        free_quad_node_index := nextFree }

/-- One iteration of the freeing loop of `set_free_quad_node`: the slot at
`parent_node.first_child + i` is set free with the current free-list head as
its link.  `parent_node` is a pool object, so its `first_child` is re-read
from the pool at each iteration. -/
def freeStep (l : List QuadNode) (pIdx : Nat) (link : Int) (i : Nat) :
    Option (List QuadNode) :=
  let base := (getN l pIdx).first_child
  match pyGet l (base + i) with
  | none => none
  | some n => pySet l (base + i) (n.set_free link)

/-- `QuadTree.set_free_quad_node(qindex)`: raises `ValueError` unless
`(qindex - 1) % 4 == 0` (before touching any state), then returns the sibling
block of `qindex`'s parent to the free list, makes the parent an empty leaf,
sets the free-list head to `qindex` and drops the in-use counter by 4. -/
def set_free_quad_node (t : QuadTree) (qindex : Int) : Except QErr QuadTree :=
  if (qindex - 1) % 4 ≠ 0 then .error .valueError
  else
    match pyNorm t.all_quad_node.length qindex with
    | none => .error .indexError
    | some _ =>
      let qn := (pyGet t.all_quad_node qindex).getD default
      match pyNorm t.all_quad_node.length (qn.parent_index : Int) with
      | none => .error .indexError
      | some pIdx =>
        let link := t.free_quad_node_index
        match freeStep t.all_quad_node pIdx link 0 with
        | none => .error .indexError
        | some l0 =>
        match freeStep l0 pIdx link 1 with
        | none => .error .indexError
        | some l1 =>
        match freeStep l1 pIdx link 2 with
        | none => .error .indexError
        | some l2 =>
        match freeStep l2 pIdx link 3 with
        | none => .error .indexError
        | some l3 =>
          let pn := getN l3 pIdx
          let l4 := setN l3 pIdx { pn with first_child := -1, total_entity := 0 }
          .ok { t with all_quad_node := l4,
                       free_quad_node_index := qindex,
                       num_quad_node_in_use := t.num_quad_node_in_use - 4 }

/-- The parent walk of `get_bbox`: while the current node's parent is not the
root, record `(parent_index - 1) % 4` and step to the parent.  The quadrant
list is built bottom-up and — per the source comment — deliberately not
reversed afterwards. -/
def gbWalk (nodes : List QuadNode) : Nat → QuadNode → List Nat → Option (List Nat)
  | 0, _, _ => none
  | fuel + 1, qn, acc =>
    if qn.parent_index = 0 then some acc
    else
      match pyGet nodes (qn.parent_index : Int) with
      | none => none
      | some parent => gbWalk nodes fuel parent (acc ++ [(qn.parent_index - 1) % 4])

/-- Applying one recorded quadrant choice: `tbbox` becomes quadrant `q` of the
old `tbbox` (and is left unchanged if `q` matches no quadrant, exactly as the
source's enumerate-and-compare loop behaves). -/
def applyQuadrant (bb : BBox) (q : Nat) : BBox := (split_box bb).getD q bb

/-- `QuadTree.get_bbox(qnode)` for the node stored at pool slot `qindex` (the
source recovers `qindex` from the node object via `list.index`).  The root is
answered directly with the whole-tree box; otherwise the bottom-up quadrant
chain is applied to the whole-tree box in the order collected. -/
def get_bbox (t : QuadTree) (qindex : Nat) : Option (Nat × BBox) :=
  if qindex = 0 then some (0, t.bbox)
  else
    match pyGet t.all_quad_node (qindex : Int) with
    | none => none
    | some qn =>
      (gbWalk t.all_quad_node (t.all_quad_node.length + 1) qn [(qindex - 1) % 4]).map
        fun quadrants => (qindex, quadrants.foldl applyQuadrant t.bbox)

/-- The bounding box the specification prescribes for a node: compose the
whole-tree box with the chain of quadrant choices from root to the node, i.e.
apply the collected quadrants in root-to-node order.  This definition follows
the spec's words and is compared against the source-derived `get_bbox`. -/
def get_bbox_spec (t : QuadTree) (qindex : Nat) : Option (Nat × BBox) :=
  if qindex = 0 then some (0, t.bbox)
  else
    match pyGet t.all_quad_node (qindex : Int) with
    | none => none
    | some qn =>
      (gbWalk t.all_quad_node (t.all_quad_node.length + 1) qn [(qindex - 1) % 4]).map
        fun quadrants => (qindex, quadrants.reverse.foldl applyQuadrant t.bbox)

/-- The traversal loop of `find_quad_node`.  The stack mirrors the Python list
used with `append`/`pop()` (head = top).  Every in-use node popped is recorded
as a candidate; quadrants of a non-leaf are pushed when they intersect *and*
inscribe the query box.  Runs on fuel; exhaustion gives `none`. -/
def fqnAux (nodes : List QuadNode) (bbox : BBox) :
    Nat → List (Int × BBox) → List (Int × QuadNode × BBox) →
    Option (List (Int × QuadNode × BBox))
  | _, [], acc => some acc.reverse
  | 0, _ :: _, _ => none
  | fuel + 1, (qindex, qbbox) :: rest, acc =>
    match pyGet nodes qindex with
    | none => none
    | some qnode =>
      if qnode.in_use = false then fqnAux nodes bbox fuel rest acc
      else
        let acc2 := (qindex, qnode, qbbox) :: acc
        if qnode.is_leaf then fqnAux nodes bbox fuel rest acc2
        else
          let pushes := (List.range 4).filterMap fun ind =>
            let quadrant := (split_box qbbox).getD ind qbbox
            if is_intersecting bbox quadrant && is_inscribed bbox quadrant then
              some (qnode.first_child + (ind : Int), quadrant)
            else none
          fqnAux nodes bbox fuel (pushes.reverse ++ rest) acc2

/-- The candidate list `find_quad_node` accumulates, in traversal order. -/
def findCandidates (t : QuadTree) (bbox : BBox) :
    Option (List (Int × QuadNode × BBox)) :=
  fqnAux t.all_quad_node bbox (4 * t.all_quad_node.length + 8) [(0, t.bbox)] []

/-- Python's `min(candidates, key=area of the region)`: the first candidate of
strictly smallest area; `none` on an empty list (a `ValueError` in Python). -/
def pickMin (l : List (Int × QuadNode × BBox)) : Option (Int × QuadNode × BBox) :=
  match l with
  | [] => none
  | c :: cs => some (cs.foldl (fun best x => if area x.2.2 < area best.2.2 then x else best) c)

/-- `QuadTree.find_quad_node(bbox, index=True)`: the minimal-area candidate of
the containment traversal. -/
def find_quad_node (t : QuadTree) (bbox : BBox) : Option (Int × QuadNode × BBox) :=
  (findCandidates t bbox).bind pickMin

/-- The expansion loop of `find_leaves`: in-use leaves are collected, and each
quadrant of a non-leaf is pushed when it intersects the *node's own* box
(`is_intersecting(qbbox, quadrant)` in the source) — not the reference box. -/
def flAux (nodes : List QuadNode) :
    Nat → List (Int × BBox) → List (Int × QuadNode × BBox) →
    Option (List (Int × QuadNode × BBox))
  | _, [], acc => some acc.reverse
  | 0, _ :: _, _ => none
  | fuel + 1, (qindex, qbbox) :: rest, acc =>
    match pyGet nodes qindex with
    | none => none
    | some qnode =>
      if qnode.in_use = false then flAux nodes fuel rest acc
      else if qnode.is_leaf then flAux nodes fuel rest ((qindex, qnode, qbbox) :: acc)
      else
        let pushes := (List.range 4).filterMap fun ind =>
          let quadrant := (split_box qbbox).getD ind qbbox
          if is_intersecting qbbox quadrant then
            some (qnode.first_child + (ind : Int), quadrant)
          else none
        flAux nodes fuel (pushes.reverse ++ rest) acc

/-- `QuadTree.find_leaves(bbox=..., index=True)`: resolve the containing node
via `find_quad_node`, then expand it down to its in-use leaf frontier. -/
def find_leaves (t : QuadTree) (bbox : BBox) :
    Option (List (Int × QuadNode × BBox)) :=
  (find_quad_node t bbox).bind fun r =>
    flAux t.all_quad_node (4 * t.all_quad_node.length + 8) [(r.1, r.2.2)] []

/-- The guard of `clean_unused_qnode`:
`not qnode.in_use or (qnode.is_leaf and qnode.total_entity > 0)`. -/
def cleanGuard (n : QuadNode) : Bool :=
  !n.in_use || (n.is_leaf && decide (0 < n.total_entity))

/-- The recursive worker `clean_unused_qnode` of `clean_up`, on fuel.  Returns
the updated tree and the Python return value (`0` or `1`).  A node that is not
in use, or a leaf holding entities, reports `0`; a branch recurses into its
four children and, when all four report `1`, frees the child block — and, for
the root only, then resets `first_child` to `1` instead of the sentinel. -/
def cleanAux : Nat → QuadTree → Int → Option (QuadTree × Nat)
  | 0, _, _ => none
  | fuel + 1, t, qi =>
    match pyNorm t.all_quad_node.length qi with
    | none => none
    | some j =>
      let qn := getN t.all_quad_node j
      if cleanGuard qn then some (t, 0)
      else if qn.is_branch then
        let cindex := qn.first_child
        match cleanAux fuel t (cindex + 0) with
        | none => none
        | some (t1, r1) =>
        match cleanAux fuel t1 (cindex + 1) with
        | none => none
        | some (t2, r2) =>
        match cleanAux fuel t2 (cindex + 2) with
        | none => none
        | some (t3, r3) =>
        match cleanAux fuel t3 (cindex + 3) with
        | none => none
        | some (t4, r4) =>
          if r1 + r2 + r3 + r4 = 4 then
            match set_free_quad_node t4 cindex with
            | .error _ => none
            | .ok t5 =>
              if j = 0 then
                let rootn := getN t5.all_quad_node 0
                some ({ t5 with
                        all_quad_node := setN t5.all_quad_node 0
                          { rootn with first_child := 1 } }, 1)
              else some (t5, 1)
          else some (t4, 1)
      else some (t, 1)

/-- `QuadTree.clean_up()`: run the recursive worker from the root.  `none`
means the recursion did not complete within the pool-size fuel (impossible for
well-formed trees) or an exception propagated. -/
def clean_up (t : QuadTree) : Option QuadTree :=
  (cleanAux (t.all_quad_node.length + 1) t 0).map Prod.fst

/-- `QuadTree.insert(self)`: takes no entity data and unconditionally raises
`NotImplementedError`. -/
def insert (_t : QuadTree) : Except QErr QuadTree := .error .notImplementedError

/-- The call `quadtree.insert(entity_data)` made by `fill_tree`: `insert`
accepts no entity parameter, so the call is an arity `TypeError` before the
body even runs; either way an exception is raised. -/
def insertCallWithArg (_t : QuadTree) (_entity_data : α) : Except QErr QuadTree :=
  .error .typeError

/-- The entity loop of `fill_tree`: `[quadtree.insert(entity_data) for
entity_data in entities]` — the first call's exception aborts the whole
operation. -/
def fillLoop (qt : QuadTree) : List α → Except QErr QuadTree
  | [] => .ok qt
  | e :: es =>
    match insertCallWithArg qt e with
    | .error er => .error er
    | .ok qt2 => fillLoop qt2 es

/-- `QuadTree.fill_tree(bbox, entities, ...)`: raises `ValueError` when both
`entities` and `bbox` are falsy; otherwise constructs a tree (the constructor
glue is abstracted as a fresh tree) and runs the insert loop over the
entities. -/
def fill_tree (bbox : Option BBox) (entities : List α) : Except QErr QuadTree :=
  if entities.isEmpty && bbox.isNone then .error .valueError
  else fillLoop (QuadTree.init (0, 0)) entities

/-! ### Basic facts about the pool accessors -/

theorem length_setN (l : List QuadNode) (i : Nat) (a : QuadNode) :
    (setN l i a).length = l.length := List.length_set ..

theorem getN_setN_self (l : List QuadNode) (i : Nat) (a : QuadNode) (h : i < l.length) :
    getN (setN l i a) i = a := by
  induction l generalizing i with
  | nil => simp at h
  | cons x xs ih =>
    cases i with
    | zero => rfl
    | succ n =>
      simp only [setN, getN, List.set_cons_succ, List.getD_cons_succ] at *
      exact ih n (by simpa using h)

theorem getN_setN_ne (l : List QuadNode) (i j : Nat) (a : QuadNode) (h : i ≠ j) :
    getN (setN l i a) j = getN l j := by
  induction l generalizing i j with
  | nil => rfl
  | cons x xs ih =>
    cases i with
    | zero =>
      cases j with
      | zero => exact absurd rfl h
      | succ m => rfl
    | succ n =>
      cases j with
      | zero => rfl
      | succ m =>
        simp only [setN, getN, List.set_cons_succ, List.getD_cons_succ] at *
        exact ih n m (fun hh => h (by omega))

theorem getN_append_lt (l m : List QuadNode) (i : Nat) (h : i < l.length) :
    getN (l ++ m) i = getN l i := by
  induction l generalizing i with
  | nil => simp at h
  | cons x xs ih =>
    cases i with
    | zero => rfl
    | succ n =>
      simp only [getN, List.cons_append, List.getD_cons_succ] at *
      exact ih n (by simpa using h)

theorem getN_append_right (l m : List QuadNode) (k : Nat) :
    getN (l ++ m) (l.length + k) = getN m k := by
  induction l with
  | nil => simp [getN]
  | cons x xs ih =>
    simpa [getN, List.getD_cons_succ, Nat.succ_add] using ih

theorem pyNorm_coe {n i : Nat} (h : i < n) : pyNorm n (i : Int) = some i := by
  have h1 : (0 : Int) ≤ (i : Int) ∧ (i : Int) < (n : Int) :=
    ⟨Int.natCast_nonneg i, by exact_mod_cast h⟩
  simp [pyNorm, h1]

theorem pyNorm_some_lt {n : Nat} {i : Int} {j : Nat} (h : pyNorm n i = some j) : j < n := by
  unfold pyNorm at h
  split at h
  · rename_i h1
    cases h
    omega
  · split at h
    · rename_i h2
      cases h
      omega
    · cases h

theorem pyGet_coe {l : List QuadNode} {i : Nat} (h : i < l.length) :
    pyGet l (i : Int) = some (getN l i) := by
  simp [pyGet, pyNorm_coe h]

theorem pySet_coe {l : List QuadNode} {i : Nat} (h : i < l.length) (a : QuadNode) :
    pySet l (i : Int) a = some (setN l i a) := by
  simp [pySet, pyNorm_coe h]

/-! ### The argmin behaviour of `pickMin` (Python `min` with an area key) -/

/-- One comparison step of Python `min` with the area key: the incumbent is
replaced only on a strictly smaller key, so the first minimum wins ties. -/
def pmStep (best x : Int × QuadNode × BBox) : Int × QuadNode × BBox :=
  if area x.2.2 < area best.2.2 then x else best

theorem pmStep_lt {c x : Int × QuadNode × BBox} (h : area x.2.2 < area c.2.2) :
    pmStep c x = x := by simp [pmStep, h]

theorem pmStep_ge {c x : Int × QuadNode × BBox} (h : ¬ area x.2.2 < area c.2.2) :
    pmStep c x = c := by simp [pmStep, h]

theorem pmFold_mem : ∀ (cs : List (Int × QuadNode × BBox)) (c b : Int × QuadNode × BBox),
    cs.foldl pmStep c = b → b = c ∨ b ∈ cs := by
  intro cs
  induction cs with
  | nil => intro c b h; exact Or.inl h.symm
  | cons x xs ih =>
    intro c b h
    rw [List.foldl_cons] at h
    by_cases hx : area x.2.2 < area c.2.2
    · rw [pmStep_lt hx] at h
      rcases ih x b h with h1 | h1
      · exact Or.inr (h1 ▸ List.mem_cons_self x xs)
      · exact Or.inr (List.mem_cons_of_mem _ h1)
    · rw [pmStep_ge hx] at h
      rcases ih c b h with h1 | h1
      · exact Or.inl h1
      · exact Or.inr (List.mem_cons_of_mem _ h1)

theorem pmFold_le : ∀ (cs : List (Int × QuadNode × BBox)) (c b : Int × QuadNode × BBox),
    cs.foldl pmStep c = b →
    area b.2.2 ≤ area c.2.2 ∧ ∀ x ∈ cs, area b.2.2 ≤ area x.2.2 := by
  intro cs
  induction cs with
  | nil =>
    intro c b h
    exact ⟨h ▸ le_refl _, by simp⟩
  | cons x xs ih =>
    intro c b h
    rw [List.foldl_cons] at h
    by_cases hx : area x.2.2 < area c.2.2
    · rw [pmStep_lt hx] at h
      refine ⟨le_trans (ih x b h).1 (le_of_lt hx), ?_⟩
      intro y hy
      rcases List.mem_cons.mp hy with rfl | hy
      · exact (ih y b h).1
      · exact (ih x b h).2 y hy
    · rw [pmStep_ge hx] at h
      refine ⟨(ih c b h).1, ?_⟩
      intro y hy
      rcases List.mem_cons.mp hy with rfl | hy
      · exact le_trans (ih c b h).1 (not_lt.mp hx)
      · exact (ih c b h).2 y hy

theorem pmFold_first : ∀ (cs : List (Int × QuadNode × BBox)) (c b : Int × QuadNode × BBox),
    cs.foldl pmStep c = b →
    b = c ∨ ∃ pre post, cs = pre ++ b :: post ∧ ∀ x ∈ c :: pre, area b.2.2 < area x.2.2 := by
  intro cs
  induction cs with
  | nil => intro c b h; exact Or.inl h.symm
  | cons x xs ih =>
    intro c b h
    rw [List.foldl_cons] at h
    by_cases hx : area x.2.2 < area c.2.2
    · rw [pmStep_lt hx] at h
      rcases ih x b h with h1 | ⟨pre, post, hs, hlt⟩
      · subst h1
        refine Or.inr ⟨[], xs, rfl, ?_⟩
        intro y hy
        rcases List.mem_cons.mp hy with rfl | hy
        · exact hx
        · simp at hy
      · refine Or.inr ⟨x :: pre, post, by rw [List.cons_append, hs], ?_⟩
        intro y hy
        rcases List.mem_cons.mp hy with rfl | hy
        · exact lt_trans (hlt x (List.mem_cons_self x pre)) hx
        · exact hlt y hy
    · rw [pmStep_ge hx] at h
      rcases ih c b h with h1 | ⟨pre, post, hs, hlt⟩
      · exact Or.inl h1
      · refine Or.inr ⟨x :: pre, post, by rw [List.cons_append, hs], ?_⟩
        intro y hy
        rcases List.mem_cons.mp hy with rfl | hy
        · exact hlt y (List.mem_cons_self y pre)
        · rcases List.mem_cons.mp hy with rfl | hy2
          · exact lt_of_lt_of_le (hlt c (List.mem_cons_self c pre)) (not_lt.mp hx)
          · exact hlt y (List.mem_cons_of_mem _ hy2)

theorem pickMin_eq_fold (c : Int × QuadNode × BBox) (cs : List (Int × QuadNode × BBox)) :
    pickMin (c :: cs) = some (cs.foldl pmStep c) := rfl

theorem pickMin_spec {l : List (Int × QuadNode × BBox)} {b : Int × QuadNode × BBox}
    (h : pickMin l = some b) :
    b ∈ l ∧ (∀ x ∈ l, area b.2.2 ≤ area x.2.2) ∧
      ∃ pre post, l = pre ++ b :: post ∧ ∀ x ∈ pre, area b.2.2 < area x.2.2 := by
  match l with
  | [] => simp [pickMin] at h
  | c :: cs =>
    rw [pickMin_eq_fold, Option.some.injEq] at h
    refine ⟨?_, ?_, ?_⟩
    · rcases pmFold_mem cs c b h with h1 | h1
      · exact h1 ▸ List.mem_cons_self c cs
      · exact List.mem_cons_of_mem _ h1
    · intro x hx
      rcases List.mem_cons.mp hx with rfl | hx
      · exact (pmFold_le cs x b h).1
      · exact (pmFold_le cs c b h).2 x hx
    · rcases pmFold_first cs c b h with h1 | ⟨pre, post, hs, hlt⟩
      · exact ⟨[], cs, by rw [h1, List.nil_append], by simp⟩
      · refine ⟨c :: pre, post, by rw [List.cons_append, hs], ?_⟩
        intro x hx
        exact hlt x hx

/-! ### Concrete fixtures -/

/-- A fresh tree over size `(100, 100)`: the pool holds only the root leaf. -/
def qtA : QuadTree := QuadTree.init (100, 100)

/-- `qtA` after `set_branch` on the root: one split, children at slots 1–4. -/
def qtA1 : QuadTree :=
  ⟨⟨0, 0, 100, 100⟩, 12, -1, 5,
    [⟨1, 0, -1, true⟩, ⟨-1, 0, 0, true⟩, ⟨-1, 0, 0, true⟩,
     ⟨-1, 0, 0, true⟩, ⟨-1, 0, 0, true⟩]⟩

/-- A fresh tree over size `(16, 16)`. -/
def qtB : QuadTree := QuadTree.init (16, 16)

/-- `qtB` after `set_branch` on the root. -/
def qtB1 : QuadTree :=
  ⟨⟨0, 0, 16, 16⟩, 12, -1, 5,
    [⟨1, 0, -1, true⟩, ⟨-1, 0, 0, true⟩, ⟨-1, 0, 0, true⟩,
     ⟨-1, 0, 0, true⟩, ⟨-1, 0, 0, true⟩]⟩

/-- `qtB1` after `clean_up`: the child block is freed, and the root — although
now an empty leaf — carries `first_child = 1` instead of the sentinel. -/
def qtB2 : QuadTree :=
  ⟨⟨0, 0, 16, 16⟩, 12, 1, 1,
    [⟨1, 0, 0, true⟩, ⟨-1, 0, 0, false⟩, ⟨-1, 0, 0, false⟩,
     ⟨-1, 0, 0, false⟩, ⟨-1, 0, 0, false⟩]⟩

/-- A size-`(100,100)` tree split at the root and then at child 2 (quadrant 1
of the root), giving the depth-2 nodes 5–8. -/
def qtC : QuadTree :=
  ⟨⟨0, 0, 100, 100⟩, 12, -1, 9,
    [⟨1, 0, -1, true⟩, ⟨-1, 0, 0, true⟩, ⟨5, 0, -1, true⟩,
     ⟨-1, 0, 0, true⟩, ⟨-1, 0, 0, true⟩, ⟨-1, 2, 0, true⟩,
     ⟨-1, 2, 0, true⟩, ⟨-1, 2, 0, true⟩, ⟨-1, 2, 0, true⟩]⟩

/-- A size-`(16,16)` tree whose root has a collapsible branch child (slot 1,
children 5–8 all empty) next to three non-empty leaf children, so that
`clean_up` collapses slot 1 but not the root. -/
def qtD : QuadTree :=
  ⟨⟨0, 0, 16, 16⟩, 12, -1, 9,
    [⟨1, 0, -1, true⟩, ⟨5, 0, -1, true⟩, ⟨-1, 0, 1, true⟩,
     ⟨-1, 0, 1, true⟩, ⟨-1, 0, 1, true⟩, ⟨-1, 1, 0, true⟩,
     ⟨-1, 1, 0, true⟩, ⟨-1, 1, 0, true⟩, ⟨-1, 1, 0, true⟩]⟩

/-- `qtD` after `clean_up`: slot 1 collapsed to an empty leaf with the
`first_child = -1` sentinel, its block 5–8 on the free list. -/
def qtD1 : QuadTree :=
  ⟨⟨0, 0, 16, 16⟩, 12, 5, 5,
    [⟨1, 0, -1, true⟩, ⟨-1, 0, 0, true⟩, ⟨-1, 0, 1, true⟩,
     ⟨-1, 0, 1, true⟩, ⟨-1, 0, 1, true⟩, ⟨-1, 1, 0, false⟩,
     ⟨-1, 1, 0, false⟩, ⟨-1, 1, 0, false⟩, ⟨-1, 1, 0, false⟩]⟩

/-! ### Containment invariant of the `find_quad_node` traversal -/

theorem fqnAux_inscribed (nodes : List QuadNode) (bbox : BBox) :
    ∀ (fuel : Nat) (stack : List (Int × BBox)) (acc res : List (Int × QuadNode × BBox)),
      fqnAux nodes bbox fuel stack acc = some res →
      (∀ e ∈ stack, is_inscribed bbox e.2 = true) →
      (∀ c ∈ acc, is_inscribed bbox c.2.2 = true) →
      ∀ c ∈ res, is_inscribed bbox c.2.2 = true := by
  intro fuel
  induction fuel with
  | zero =>
    intro stack acc res h hs ha
    match stack with
    | [] =>
      simp only [fqnAux, Option.some.injEq] at h
      subst h
      intro c hc
      exact ha c (List.mem_reverse.mp hc)
    | e :: es => simp [fqnAux] at h
  | succ n ih =>
    intro stack acc res h hs ha
    match stack with
    | [] =>
      simp only [fqnAux, Option.some.injEq] at h
      subst h
      intro c hc
      exact ha c (List.mem_reverse.mp hc)
    | (qindex, qbbox) :: rest =>
      simp only [fqnAux] at h
      cases hg : pyGet nodes qindex with
      | none => rw [hg] at h; exact Option.noConfusion h
      | some qnode =>
        rw [hg] at h
        dsimp only at h
        have hrest : ∀ e ∈ rest, is_inscribed bbox e.2 = true :=
          fun e he => hs e (List.mem_cons_of_mem _ he)
        have hhead : is_inscribed bbox qbbox = true := hs (qindex, qbbox) (List.mem_cons_self _ _)
        by_cases hu : qnode.in_use = false
        · rw [if_pos hu] at h
          exact ih rest acc res h hrest ha
        · rw [if_neg hu] at h
          by_cases hl : qnode.is_leaf
          · rw [if_pos hl] at h
            refine ih rest ((qindex, qnode, qbbox) :: acc) res h hrest ?_
            intro c hc
            rcases List.mem_cons.mp hc with rfl | hc
            · exact hhead
            · exact ha c hc
          · rw [if_neg hl] at h
            refine ih _ ((qindex, qnode, qbbox) :: acc) res h ?_ ?_
            · intro e he
              rcases List.mem_append.mp he with he | he
              · rcases List.mem_filterMap.mp (List.mem_reverse.mp he) with ⟨ind, _, hcond⟩
                split at hcond
                · rename_i hcc
                  cases hcond
                  exact (Bool.and_eq_true_iff.mp hcc).2
                · cases hcond
              · exact hrest e he
            · intro c hc
              rcases List.mem_cons.mp hc with rfl | hc
              · exact hhead
              · exact ha c hc

/-! ### Claim C1 -/

/-- C1 (amended): `find_quad_node` returns one of the candidates recorded
during its traversal; *provided the query box is inscribed in the root
region*, that candidate's region fully contains the query box; no visited
candidate has a region of strictly smaller area than the returned one; and
among candidates of equal minimal area the one encountered first in traversal
order is returned. -/
theorem claim1_find_quad_node_minimal {t : QuadTree} {bbox : BBox}
    {cands : List (Int × QuadNode × BBox)} {res : Int × QuadNode × BBox}
    (hc : findCandidates t bbox = some cands)
    (hr : find_quad_node t bbox = some res)
    (hin : is_inscribed bbox t.bbox = true) :
    res ∈ cands ∧ is_inscribed bbox res.2.2 = true ∧
      (∀ c ∈ cands, area res.2.2 ≤ area c.2.2) ∧
      ∃ pre post, cands = pre ++ res :: post ∧ ∀ c ∈ pre, area res.2.2 < area c.2.2 := by
  have hpick : pickMin cands = some res := by
    rw [find_quad_node, hc] at hr
    exact hr
  obtain ⟨hmem, hle, hfirst⟩ := pickMin_spec hpick
  have hins : ∀ c ∈ cands, is_inscribed bbox c.2.2 = true := by
    refine fqnAux_inscribed t.all_quad_node bbox _ _ _ _ hc ?_ (by simp)
    intro e he
    rcases List.mem_singleton.mp he with rfl
    exact hin
  exact ⟨hmem, hins res hmem, hle, hfirst⟩

/-- C1, counterexample to the original statement: for a query box lying
outside the whole-tree region the root is returned as fallback candidate even
though its region does not contain the query box. -/
theorem claim1_counterexample :
    find_quad_node qtA ⟨200, 200, 1, 1⟩ =
      some (0, ⟨-1, 0, 0, true⟩, ⟨0, 0, 100, 100⟩) ∧
    is_inscribed ⟨200, 200, 1, 1⟩ ⟨0, 0, 100, 100⟩ = false := by
  exact ⟨by with_unfolding_all rfl, by with_unfolding_all rfl⟩

/-- C1, witness: the amended theorem applied to the once-split `(100,100)`
tree and the query box `(12,12,1,1)`. -/
theorem claim1_witness :
    (1, (⟨-1, 0, 0, true⟩ : QuadNode), (⟨0, 0, 50, 50⟩ : BBox)) ∈
      [((0 : Int), (⟨1, 0, -1, true⟩ : QuadNode), (⟨0, 0, 100, 100⟩ : BBox)),
       (1, ⟨-1, 0, 0, true⟩, ⟨0, 0, 50, 50⟩)] ∧
    is_inscribed ⟨12, 12, 1, 1⟩ ⟨0, 0, 50, 50⟩ = true ∧
    (∀ c ∈ [((0 : Int), (⟨1, 0, -1, true⟩ : QuadNode), (⟨0, 0, 100, 100⟩ : BBox)),
            (1, ⟨-1, 0, 0, true⟩, ⟨0, 0, 50, 50⟩)],
        area (⟨0, 0, 50, 50⟩ : BBox) ≤ area c.2.2) ∧
    ∃ pre post,
      [((0 : Int), (⟨1, 0, -1, true⟩ : QuadNode), (⟨0, 0, 100, 100⟩ : BBox)),
       (1, ⟨-1, 0, 0, true⟩, ⟨0, 0, 50, 50⟩)] =
        pre ++ (1, (⟨-1, 0, 0, true⟩ : QuadNode), (⟨0, 0, 50, 50⟩ : BBox)) :: post ∧
      ∀ c ∈ pre, area (⟨0, 0, 50, 50⟩ : BBox) < area c.2.2 :=
  @claim1_find_quad_node_minimal qtA1 ⟨12, 12, 1, 1⟩
    [((0 : Int), (⟨1, 0, -1, true⟩ : QuadNode), (⟨0, 0, 100, 100⟩ : BBox)),
     (1, ⟨-1, 0, 0, true⟩, ⟨0, 0, 50, 50⟩)]
    (1, ⟨-1, 0, 0, true⟩, ⟨0, 0, 50, 50⟩)
    (by with_unfolding_all rfl) (by with_unfolding_all rfl) (by with_unfolding_all rfl)

/-! ### Claim C2 -/

/-- C2 (code bug): `get_bbox` answers the root with the whole-tree box, but
for deeper nodes it applies the collected quadrant choices in node-to-root
order ("the quadrants list is not to be reversed"), not root-to-node order.
At depth 2 the two orders disagree: node 5 of `qtC` has quadrant path
root →(quadrant 1)→ node 2 →(quadrant 0)→ node 5, whose true region
(root-to-node, `get_bbox_spec`) is `(50,0,25,25)`, while the source returns
`(25,0,25,25)`. -/
theorem claim2_get_bbox_order_bug :
    get_bbox qtC 0 = some (0, ⟨0, 0, 100, 100⟩) ∧
    get_bbox qtC 5 = some (5, ⟨25, 0, 25, 25⟩) ∧
    get_bbox_spec qtC 5 = some (5, ⟨50, 0, 25, 25⟩) ∧
    get_bbox qtC 5 ≠ get_bbox_spec qtC 5 := by
  refine ⟨by with_unfolding_all rfl, by with_unfolding_all rfl, by with_unfolding_all rfl, ?_⟩
  exact of_decide_eq_true (by with_unfolding_all rfl)

/-! ### Claim C5 -/

/-- C5 (code bug): when `clean_up` collapses a non-root branch its
`first_child` is reset to the sentinel `-1` (slot 1 of `qtD`), but after a
root-level collapse the source sets the root's `first_child` to `1`, not to
the sentinel `-1` the claim requires. -/
theorem claim5_root_cleanup_quirk :
    clean_up qtB1 = some qtB2 ∧
    (getN qtB2.all_quad_node 0).first_child = 1 ∧
    clean_up qtD = some qtD1 ∧
    (getN qtD1.all_quad_node 1).first_child = -1 ∧
    ((1 : Int) ≠ -1) := by
  refine ⟨by with_unfolding_all rfl, by with_unfolding_all rfl, by with_unfolding_all rfl,
    by with_unfolding_all rfl, by decide⟩

/-! ### Claim C7 -/

theorem set_free_body_no_valueError {t : QuadTree} {q : Int}
    (hmod : ¬ (q - 1) % 4 ≠ 0) :
    set_free_quad_node t q ≠ Except.error QErr.valueError := by
  intro h
  unfold set_free_quad_node at h
  rw [if_neg hmod] at h
  split at h
  · cases h
  · dsimp only at h
    split at h
    · cases h
    · split at h
      · cases h
      · split at h
        · cases h
        · split at h
          · cases h
          · split at h
            · cases h
            · cases h

/-- C7: `set_free_quad_node` raises `ValueError` (the invalid-argument error)
exactly when `(qindex - 1) % 4 ≠ 0`; the check precedes every state access,
so a raising call leaves the tree unchanged (the embedding returns the error
before constructing any new state). -/
theorem claim7_free_invalid_argument (t : QuadTree) (q : Int) :
    set_free_quad_node t q = Except.error QErr.valueError ↔ (q - 1) % 4 ≠ 0 := by
  constructor
  · intro h
    by_contra hmod
    exact set_free_body_no_valueError (not_not_intro hmod) h
  · intro hmod
    unfold set_free_quad_node
    rw [if_pos hmod]

/-! ### Claim C8 -/

/-- C8, counterexample to the original statement: invoked on an empty tree
with a reference box outside the root region, both queries return a result
instead of reporting a NotFound error (the source has no such error path). -/
theorem claim8_counterexample :
    (find_quad_node qtA ⟨200, 200, 1, 1⟩).isSome = true ∧
    (find_leaves qtA ⟨200, 200, 1, 1⟩).isSome = true := by
  exact ⟨by with_unfolding_all rfl, by with_unfolding_all rfl⟩

/-- C8 (amended): neither query ever reports NotFound.  On an empty tree —
whatever the query box, inside or outside the root region — `find_quad_node`
returns the root with the whole-tree box and `find_leaves` returns the root
as the sole leaf; on a non-empty tree a reference box outside the root region
still yields the root as fallback. -/
theorem claim8_no_notfound :
    (∀ (s : ℚ × ℚ) (md : Nat) (bb : BBox),
        find_quad_node (QuadTree.init s md) bb =
          some (0, ⟨-1, 0, 0, true⟩, ⟨0, 0, s.1, s.2⟩) ∧
        find_leaves (QuadTree.init s md) bb =
          some [(0, ⟨-1, 0, 0, true⟩, ⟨0, 0, s.1, s.2⟩)]) ∧
    find_quad_node qtA1 ⟨200, 200, 1, 1⟩ =
      some (0, ⟨1, 0, -1, true⟩, ⟨0, 0, 100, 100⟩) := by
  refine ⟨fun s md bb => ⟨rfl, rfl⟩, by with_unfolding_all rfl⟩

/-! ### Claim C6 -/

/-- A box with positive extent (every real region box has one). -/
def posBox (b : BBox) : Prop := 0 < b.w ∧ 0 < b.h

/-- The descendant relation that `find_leaves` expands: starting from a node
and its working box, repeatedly step to child `k` of an in-use non-leaf node,
quartering the box accordingly. -/
inductive SubB (nodes : List QuadNode) : Int → BBox → Int → BBox → Prop where
  | refl (i : Int) (b : BBox) : SubB nodes i b i b
  | step {i : Int} {b : BBox} {j : Int} {c : BBox} (k : Nat) (n : QuadNode) :
      SubB nodes i b j c → pyGet nodes j = some n → n.in_use = true →
      n.is_leaf = false → k < 4 →
      SubB nodes i b (n.first_child + (k : Int)) ((split_box c).getD k c)

theorem posBox_quadrant {b : BBox} (hb : posBox b) (k : Nat) (hk : k < 4) :
    posBox ((split_box b).getD k b) := by
  obtain ⟨hw, hh⟩ := hb
  interval_cases k
  · exact ⟨show (0 : ℚ) < b.w / 2 by positivity, show (0 : ℚ) < b.h / 2 by positivity⟩
  · exact ⟨show (0 : ℚ) < b.w / 2 by positivity, show (0 : ℚ) < b.h / 2 by positivity⟩
  · exact ⟨show (0 : ℚ) < b.w / 2 by positivity, show (0 : ℚ) < b.h / 2 by positivity⟩
  · exact ⟨show (0 : ℚ) < b.w / 2 by positivity, show (0 : ℚ) < b.h / 2 by positivity⟩

theorem is_intersecting_self_quadrant {b : BBox} (hb : posBox b) (k : Nat) (hk : k < 4) :
    is_intersecting b ((split_box b).getD k b) = true := by
  obtain ⟨hw, hh⟩ := hb
  interval_cases k
  · show is_intersecting b ⟨b.x, b.y, b.w / 2, b.h / 2⟩ = true
    simp only [is_intersecting, Bool.and_eq_true, decide_eq_true_eq]
    exact ⟨⟨⟨by linarith, by linarith⟩, by linarith⟩, by linarith⟩
  · show is_intersecting b ⟨b.x + b.w / 2, b.y, b.w / 2, b.h / 2⟩ = true
    simp only [is_intersecting, Bool.and_eq_true, decide_eq_true_eq]
    exact ⟨⟨⟨by linarith, by linarith⟩, by linarith⟩, by linarith⟩
  · show is_intersecting b ⟨b.x, b.y + b.h / 2, b.w / 2, b.h / 2⟩ = true
    simp only [is_intersecting, Bool.and_eq_true, decide_eq_true_eq]
    exact ⟨⟨⟨by linarith, by linarith⟩, by linarith⟩, by linarith⟩
  · show is_intersecting b ⟨b.x + b.w / 2, b.y + b.h / 2, b.w / 2, b.h / 2⟩ = true
    simp only [is_intersecting, Bool.and_eq_true, decide_eq_true_eq]
    exact ⟨⟨⟨by linarith, by linarith⟩, by linarith⟩, by linarith⟩

/-- Step-at-the-head inversion for `SubB`: a descendant is either the start
itself or a descendant of one of the start's four quadrant children. -/
theorem SubB_head_cases {nodes : List QuadNode} {i j : Int} {b c : BBox}
    (h : SubB nodes i b j c) :
    (j = i ∧ c = b) ∨
      ∃ (n : QuadNode) (k : Nat),
        pyGet nodes i = some n ∧ n.in_use = true ∧ n.is_leaf = false ∧ k < 4 ∧
        SubB nodes (n.first_child + (k : Int)) ((split_box b).getD k b) j c := by
  induction h with
  | refl => exact Or.inl ⟨rfl, rfl⟩
  | step k n hsub hget huse hleaf hk ih =>
    rcases ih with ⟨rfl, rfl⟩ | ⟨n0, k0, hget0, huse0, hleaf0, hk0, htail⟩
    · exact Or.inr ⟨n, k, hget, huse, hleaf, hk, SubB.refl _ _⟩
    · exact Or.inr ⟨n0, k0, hget0, huse0, hleaf0, hk0,
        SubB.step k n htail hget huse hleaf hk⟩

theorem flAux_acc_sub (nodes : List QuadNode) :
    ∀ (fuel : Nat) (stack : List (Int × BBox)) (acc res : List (Int × QuadNode × BBox)),
      flAux nodes fuel stack acc = some res → ∀ x ∈ acc, x ∈ res := by
  intro fuel
  induction fuel with
  | zero =>
    intro stack acc res h x hx
    match stack with
    | [] =>
      simp only [flAux, Option.some.injEq] at h
      subst h
      exact List.mem_reverse.mpr hx
    | e :: es => simp [flAux] at h
  | succ f ih =>
    intro stack acc res h x hx
    match stack with
    | [] =>
      simp only [flAux, Option.some.injEq] at h
      subst h
      exact List.mem_reverse.mpr hx
    | (qi, qb) :: rest =>
      simp only [flAux] at h
      cases hg : pyGet nodes qi with
      | none => rw [hg] at h; exact Option.noConfusion h
      | some qnode =>
        rw [hg] at h
        dsimp only at h
        by_cases hu : qnode.in_use = false
        · rw [if_pos hu] at h
          exact ih rest acc res h x hx
        · rw [if_neg hu] at h
          by_cases hl : qnode.is_leaf
          · rw [if_pos hl] at h
            exact ih rest _ res h x (List.mem_cons_of_mem _ hx)
          · rw [if_neg hl] at h
            exact ih _ acc res h x hx

theorem flAux_sound (nodes : List QuadNode) (i0 : Int) (b0 : BBox) :
    ∀ (fuel : Nat) (stack : List (Int × BBox)) (acc res : List (Int × QuadNode × BBox)),
      flAux nodes fuel stack acc = some res →
      (∀ e ∈ stack, SubB nodes i0 b0 e.1 e.2) →
      (∀ x ∈ acc, pyGet nodes x.1 = some x.2.1 ∧ x.2.1.in_use = true ∧
        x.2.1.is_leaf = true ∧ SubB nodes i0 b0 x.1 x.2.2) →
      ∀ x ∈ res, pyGet nodes x.1 = some x.2.1 ∧ x.2.1.in_use = true ∧
        x.2.1.is_leaf = true ∧ SubB nodes i0 b0 x.1 x.2.2 := by
  intro fuel
  induction fuel with
  | zero =>
    intro stack acc res h hs ha
    match stack with
    | [] =>
      simp only [flAux, Option.some.injEq] at h
      subst h
      intro x hx
      exact ha x (List.mem_reverse.mp hx)
    | e :: es => simp [flAux] at h
  | succ f ih =>
    intro stack acc res h hs ha
    match stack with
    | [] =>
      simp only [flAux, Option.some.injEq] at h
      subst h
      intro x hx
      exact ha x (List.mem_reverse.mp hx)
    | (qi, qb) :: rest =>
      simp only [flAux] at h
      cases hg : pyGet nodes qi with
      | none => rw [hg] at h; exact Option.noConfusion h
      | some qnode =>
        rw [hg] at h
        dsimp only at h
        have hrest : ∀ e ∈ rest, SubB nodes i0 b0 e.1 e.2 :=
          fun e he => hs e (List.mem_cons_of_mem _ he)
        have hhead : SubB nodes i0 b0 qi qb := hs (qi, qb) (List.mem_cons_self _ _)
        by_cases hu : qnode.in_use = false
        · rw [if_pos hu] at h
          exact ih rest acc res h hrest ha
        · rw [if_neg hu] at h
          by_cases hl : qnode.is_leaf
          · rw [if_pos hl] at h
            refine ih rest _ res h hrest ?_
            intro x hx
            rcases List.mem_cons.mp hx with rfl | hx
            · exact ⟨hg, Bool.not_eq_false _ ▸ (by revert hu; cases qnode.in_use <;> simp),
                hl, hhead⟩
            · exact ha x hx
          · rw [if_neg hl] at h
            refine ih _ acc res h ?_ ha
            intro e he
            rcases List.mem_append.mp he with he | he
            · rcases List.mem_filterMap.mp (List.mem_reverse.mp he) with ⟨ind, hind, hcond⟩
              split at hcond
              · cases hcond
                exact SubB.step ind qnode hhead hg
                  (by revert hu; cases qnode.in_use <;> simp)
                  (Bool.not_eq_true _ ▸ (by revert hl; cases qnode.is_leaf <;> simp))
                  (List.mem_range.mp hind)
              · cases hcond
            · exact hrest e he

theorem flAux_complete (nodes : List QuadNode) :
    ∀ (fuel : Nat) (stack : List (Int × BBox)) (acc res : List (Int × QuadNode × BBox)),
      flAux nodes fuel stack acc = some res →
      ∀ e ∈ stack, posBox e.2 →
      ∀ j c, SubB nodes e.1 e.2 j c →
      ∀ n, pyGet nodes j = some n → n.in_use = true → n.is_leaf = true →
      (j, n, c) ∈ res := by
  intro fuel
  induction fuel with
  | zero =>
    intro stack acc res h e he
    match stack with
    | [] => simp at he
    | x :: xs => simp [flAux] at h
  | succ f ih =>
    intro stack acc res h e he hpos j c hsub n hget huse hleaf
    match stack with
    | [] => simp at he
    | (qi, qb) :: rest =>
      simp only [flAux] at h
      cases hg : pyGet nodes qi with
      | none => rw [hg] at h; exact Option.noConfusion h
      | some qnode =>
        rw [hg] at h
        dsimp only at h
        rcases List.mem_cons.mp he with rfl | hin
        · -- the element is the head of the stack
          rcases SubB_head_cases hsub with ⟨rfl, rfl⟩ | ⟨n0, k, hget0, huse0, hleaf0, hk, htail⟩
          · -- the descendant is the head node itself, an in-use leaf: collected
            have hn : n = qnode := by rw [hget] at hg; exact Option.some.inj hg
            subst hn
            rw [if_neg (by simp [huse]), if_pos hleaf] at h
            exact flAux_acc_sub nodes f rest _ res h _ (List.mem_cons_self _ _)
          · -- the descendant lies under quadrant child k: it was pushed
            have hn0 : n0 = qnode := by
              rw [hget0] at hg; exact Option.some.inj hg
            subst hn0
            rw [if_neg (by simp [huse0]), if_neg (by simp [hleaf0])] at h
            refine ih _ _ res h (n0.first_child + (k : Int), (split_box qb).getD k qb)
              ?_ (posBox_quadrant hpos k hk) j c htail n hget huse hleaf
            refine List.mem_append.mpr (Or.inl (List.mem_reverse.mpr ?_))
            refine List.mem_filterMap.mpr ⟨k, List.mem_range.mpr hk, ?_⟩
            rw [if_pos (is_intersecting_self_quadrant hpos k hk)]
        · -- the element sits deeper in the stack
          by_cases hu : qnode.in_use = false
          · rw [if_pos hu] at h
            exact ih rest _ res h e hin hpos j c hsub n hget huse hleaf
          · rw [if_neg hu] at h
            by_cases hl : qnode.is_leaf
            · rw [if_pos hl] at h
              exact ih rest _ res h e hin hpos j c hsub n hget huse hleaf
            · rw [if_neg hl] at h
              exact ih _ _ res h e (List.mem_append.mpr (Or.inr hin)) hpos j c hsub
                n hget huse hleaf

/-- C6 (amended): `find_leaves` returns exactly the in-use leaf frontier under
the containing node: every element of the returned list is an in-use leaf
paired with the region its quadrant path derives, and every in-use leaf
reachable from the containing node is included — *regardless of whether its
region overlaps the reference box*, because the source's expansion test
compares each quadrant against the parent's own region, which always
overlaps. -/
theorem claim6_find_leaves_frontier {t : QuadTree} {bbox : BBox}
    {qi : Int} {qn : QuadNode} {qb : BBox} {res : List (Int × QuadNode × BBox)}
    (hq : find_quad_node t bbox = some (qi, qn, qb))
    (hres : find_leaves t bbox = some res)
    (hpos : posBox qb) (j : Int) (n : QuadNode) (c : BBox) :
    (j, n, c) ∈ res ↔
      (pyGet t.all_quad_node j = some n ∧ n.in_use = true ∧ n.is_leaf = true ∧
        SubB t.all_quad_node qi qb j c) := by
  have hfl : flAux t.all_quad_node (4 * t.all_quad_node.length + 8) [(qi, qb)] [] =
      some res := by
    rw [find_leaves, hq] at hres
    exact hres
  constructor
  · intro hmem
    exact flAux_sound t.all_quad_node qi qb _ _ _ _ hfl
      (by intro e he; rcases List.mem_singleton.mp he with rfl; exact SubB.refl _ _)
      (by simp) _ hmem
  · rintro ⟨hget, huse, hleaf, hsub⟩
    exact flAux_complete t.all_quad_node _ _ _ _ hfl (qi, qb)
      (List.mem_singleton.mpr rfl) hpos j c hsub n hget huse hleaf

/-- C6, counterexample to the original statement: on the once-split `(16,16)`
tree with reference box `(0,7,2,2)` (straddling the west quadrants), the
returned frontier contains the south-east leaf with region `(8,8,8,8)`, which
does not overlap the reference box. -/
theorem claim6_counterexample :
    find_leaves qtB1 ⟨0, 7, 2, 2⟩ =
      some [(4, ⟨-1, 0, 0, true⟩, ⟨8, 8, 8, 8⟩), (3, ⟨-1, 0, 0, true⟩, ⟨0, 8, 8, 8⟩),
            (2, ⟨-1, 0, 0, true⟩, ⟨8, 0, 8, 8⟩), (1, ⟨-1, 0, 0, true⟩, ⟨0, 0, 8, 8⟩)] ∧
    is_intersecting ⟨0, 7, 2, 2⟩ ⟨8, 8, 8, 8⟩ = false := by
  exact ⟨by with_unfolding_all rfl, by with_unfolding_all rfl⟩

/-- C6, witness: the amended theorem applied to the once-split `(16,16)` tree,
reference box `(0,7,2,2)` and the south-east leaf `(4, (8,8,8,8))`. -/
theorem claim6_witness :
    ((4 : Int), (⟨-1, 0, 0, true⟩ : QuadNode), (⟨8, 8, 8, 8⟩ : BBox)) ∈
      [((4 : Int), (⟨-1, 0, 0, true⟩ : QuadNode), (⟨8, 8, 8, 8⟩ : BBox)),
       (3, ⟨-1, 0, 0, true⟩, ⟨0, 8, 8, 8⟩), (2, ⟨-1, 0, 0, true⟩, ⟨8, 0, 8, 8⟩),
       (1, ⟨-1, 0, 0, true⟩, ⟨0, 0, 8, 8⟩)] ↔
      (pyGet qtB1.all_quad_node 4 = some ⟨-1, 0, 0, true⟩ ∧
        (⟨-1, 0, 0, true⟩ : QuadNode).in_use = true ∧
        (⟨-1, 0, 0, true⟩ : QuadNode).is_leaf = true ∧
        SubB qtB1.all_quad_node 0 ⟨0, 0, 16, 16⟩ 4 ⟨8, 8, 8, 8⟩) :=
  @claim6_find_leaves_frontier qtB1 ⟨0, 7, 2, 2⟩ 0 ⟨1, 0, -1, true⟩ ⟨0, 0, 16, 16⟩
    [((4 : Int), (⟨-1, 0, 0, true⟩ : QuadNode), (⟨8, 8, 8, 8⟩ : BBox)),
     (3, ⟨-1, 0, 0, true⟩, ⟨0, 8, 8, 8⟩), (2, ⟨-1, 0, 0, true⟩, ⟨8, 0, 8, 8⟩),
     (1, ⟨-1, 0, 0, true⟩, ⟨0, 0, 8, 8⟩)]
    (by with_unfolding_all rfl) (by with_unfolding_all rfl)
    ⟨by norm_num, by norm_num⟩ 4 ⟨-1, 0, 0, true⟩ ⟨8, 8, 8, 8⟩

/-! ### Claim C10 -/

/-- C10: `insert` takes no entity data and unconditionally raises
(`NotImplementedError`), leaving the tree unchanged; consequently `fill_tree`
with a non-empty entity list always raises on the first insert call (an arity
`TypeError`, since `insert` accepts no entity argument) and never returns a
tree. -/
theorem claim10_insert_always_raises :
    (∀ t : QuadTree, insert t = Except.error QErr.notImplementedError) ∧
    (∀ (α : Type) (bb : Option BBox) (e : α) (es : List α),
        fill_tree bb (e :: es) = Except.error QErr.typeError) := by
  refine ⟨fun t => rfl, fun α bb e es => ?_⟩
  simp [fill_tree, fillLoop, insertCallWithArg]

/-! ### Claim C3 -/

theorem setN_setN_self (l : List QuadNode) (i : Nat) (a b : QuadNode) :
    setN (setN l i a) i b = setN l i b := List.set_set ..

theorem freeStep_eq {l : List QuadNode} {pIdx f : Nat} (link : Int) (i : Nat)
    (hbase : (getN l pIdx).first_child = (f : Int)) (hrange : f + i < l.length) :
    freeStep l pIdx link i = some (setN l (f + i) ((getN l (f + i)).set_free link)) := by
  unfold freeStep
  dsimp only
  rw [hbase]
  have hcast : (f : Int) + (i : Int) = ((f + i : Nat) : Int) := by push_cast; ring
  rw [hcast, pyGet_coe hrange]
  dsimp only
  rw [pySet_coe hrange]

/-- The reachable state used as the round-trip witness: a `(16,16)` tree,
root split, child 1 split, cleaned up (freeing both blocks), root re-split
reusing block 1 — leaving slot 1 an empty leaf with the `-1` sentinel and the
block 5–8 still on the free list. -/
def qtE : QuadTree :=
  ⟨⟨0, 0, 16, 16⟩, 12, 5, 5,
    [⟨1, 0, -1, true⟩, ⟨-1, 0, 0, true⟩, ⟨-1, 0, 0, true⟩,
     ⟨-1, 0, 0, true⟩, ⟨-1, 0, 0, true⟩, ⟨-1, 1, 0, false⟩,
     ⟨-1, 1, 0, false⟩, ⟨-1, 1, 0, false⟩, ⟨-1, 1, 0, false⟩]⟩

/-- C3 (amended): for a pool state in which the given node is an *empty* leaf
carrying the `-1` sentinel, and whose free list is *non-empty* (head a block
base disjoint from the node), `set_branch` followed immediately by
`set_free_quad_node` on the newly assigned child block restores the free-list
head, the in-use counter, and the parent node's record exactly. -/
theorem claim3_round_trip (t : QuadTree) (qindex f : Nat)
    (hqlt : qindex < t.all_quad_node.length)
    (hfc : (getN t.all_quad_node qindex).first_child = -1)
    (hte : (getN t.all_quad_node qindex).total_entity = 0)
    (hfree : t.free_quad_node_index = (f : Int))
    (hf4 : f % 4 = 1)
    (hflt : f + 3 < t.all_quad_node.length)
    (hne : ∀ k < 4, f + k ≠ qindex) :
    ∃ t1 t2, set_branch t qindex = some t1 ∧
      t1.free_quad_node_index = (getN t.all_quad_node f).first_child ∧
      (getN t1.all_quad_node qindex).first_child = (f : Int) ∧
      set_free_quad_node t1 (f : Int) = Except.ok t2 ∧
      t2.free_quad_node_index = t.free_quad_node_index ∧
      t2.num_quad_node_in_use = t.num_quad_node_in_use ∧
      getN t2.all_quad_node qindex = getN t.all_quad_node qindex := by
  have hlen : t.all_quad_node.length = (setN t.all_quad_node qindex
      { getN t.all_quad_node qindex with total_entity := -1 }).length :=
    (length_setN ..).symm
  -- the four block indices are in range and distinct from the parent
  have hfr0 : f + 0 < t.all_quad_node.length := by omega
  have hfr1 : f + 1 < t.all_quad_node.length := by omega
  have hfr2 : f + 2 < t.all_quad_node.length := by omega
  have hfr3 : f + 3 < t.all_quad_node.length := by omega
  have hne0 : f + 0 ≠ qindex := hne 0 (by omega)
  have hne1 : f + 1 ≠ qindex := hne 1 (by omega)
  have hne2 : f + 2 ≠ qindex := hne 2 (by omega)
  have hne3 : f + 3 ≠ qindex := hne 3 (by omega)
  -- name the parent's record and the branch version of it
  set qn0 := getN t.all_quad_node qindex with hqn0
  -- compute `set_branch t qindex`
  set q1 : QuadNode := { qn0 with total_entity := -1, first_child := (f : Int) } with hq1
  set u : QuadNode := QuadNode.update qindex with hu
  set L0 : List QuadNode := setN t.all_quad_node qindex q1 with hL0
  have hlen0 : L0.length = t.all_quad_node.length := length_setN ..
  have hgetf : ∀ k, f + k ≠ qindex → getN L0 (f + k) = getN t.all_quad_node (f + k) :=
    fun k hk => getN_setN_ne _ _ _ _ fun hh => hk (hh ▸ rfl)
  set L1 : List QuadNode := setN (setN (setN (setN L0 (f + 0) u) (f + 1) u) (f + 2) u)
      (f + 3) u with hL1
  have hlen1 : L1.length = t.all_quad_node.length := by
    simp [hL1, length_setN, hlen0]
  set F2 : Int := (getN t.all_quad_node f).first_child with hF2
  have hbranch : set_branch t qindex = some
      { t with all_quad_node := L1, num_quad_node_in_use := t.num_quad_node_in_use + 4,
               free_quad_node_index := F2 } := by
    unfold set_branch
    rw [pyGet_coe hqlt]
    dsimp only
    rw [hfree]
    rw [if_neg (by omega : ¬ ((f : Nat) : Int) = -1)]
    rw [getN_setN_self _ _ _ hqlt, setN_setN_self]
    have hq1eq : ({ { qn0 with total_entity := -1 } with first_child := ((f : Nat) : Int) } :
        QuadNode) = q1 := rfl
    rw [hq1eq]
    have hget2 : pyGet (setN t.all_quad_node qindex q1) ((f : Nat) : Int) =
        some (getN t.all_quad_node f) := by
      rw [pyGet_coe (by rw [length_setN]; omega)]
      rw [getN_setN_ne _ _ _ _ (fun hh => hne0 (by omega))]
    rw [hget2]
    dsimp only
    rw [show ((f : Nat) : Int) + 0 = ((f + 0 : Nat) : Int) by push_cast; ring]
    rw [pySet_coe (show f + 0 < L0.length by omega)]
    dsimp only
    rw [show ((f : Nat) : Int) + 1 = ((f + 1 : Nat) : Int) by push_cast; ring]
    rw [pySet_coe (show f + 1 < (setN L0 (f + 0) u).length by rw [length_setN]; omega)]
    dsimp only
    rw [show ((f : Nat) : Int) + 2 = ((f + 2 : Nat) : Int) by push_cast; ring]
    rw [pySet_coe (show f + 2 < (setN (setN L0 (f + 0) u) (f + 1) u).length by
      rw [length_setN, length_setN]; omega)]
    dsimp only
    rw [show ((f : Nat) : Int) + 3 = ((f + 3 : Nat) : Int) by push_cast; ring]
    rw [pySet_coe (show f + 3 <
        (setN (setN (setN L0 (f + 0) u) (f + 1) u) (f + 2) u).length by
      rw [length_setN, length_setN, length_setN]; omega)]
  -- facts about `L1`
  have hL1q : getN L1 qindex = q1 := by
    rw [hL1]
    rw [getN_setN_ne _ _ _ _ hne3, getN_setN_ne _ _ _ _ hne2,
        getN_setN_ne _ _ _ _ hne1, getN_setN_ne _ _ _ _ hne0]
    exact getN_setN_self _ _ _ hqlt
  have hL1f : ∀ k, k < 4 → getN L1 (f + k) = u := by
    intro k hk
    interval_cases k
    · rw [hL1, getN_setN_ne _ _ _ _ (by omega), getN_setN_ne _ _ _ _ (by omega),
          getN_setN_ne _ _ _ _ (by omega)]
      exact getN_setN_self _ _ _ (by rw [hlen0]; omega)
    · rw [hL1, getN_setN_ne _ _ _ _ (by omega), getN_setN_ne _ _ _ _ (by omega)]
      exact getN_setN_self _ _ _ (by rw [length_setN, hlen0]; omega)
    · rw [hL1, getN_setN_ne _ _ _ _ (by omega)]
      exact getN_setN_self _ _ _ (by rw [length_setN, length_setN, hlen0]; omega)
    · rw [hL1]
      exact getN_setN_self _ _ _ (by
        rw [length_setN, length_setN, length_setN, hlen0]; omega)
  -- now compute `set_free_quad_node` on the split tree
  set t1 : QuadTree :=
    { t with all_quad_node := L1, num_quad_node_in_use := t.num_quad_node_in_use + 4,
             free_quad_node_index := F2 } with ht1
  -- the freeing loop writes the four block slots in sequence
  set w : QuadNode := QuadNode.set_free u F2 with hw
  set M0 : List QuadNode := setN L1 (f + 0) w with hM0
  set M1 : List QuadNode := setN M0 (f + 1) w with hM1
  set M2 : List QuadNode := setN M1 (f + 2) w with hM2
  set M3 : List QuadNode := setN M2 (f + 3) w with hM3
  have hlenM0 : M0.length = t.all_quad_node.length := by rw [hM0, length_setN, hlen1]
  have hlenM1 : M1.length = t.all_quad_node.length := by rw [hM1, length_setN, hlenM0]
  have hlenM2 : M2.length = t.all_quad_node.length := by rw [hM2, length_setN, hlenM1]
  have hlenM3 : M3.length = t.all_quad_node.length := by rw [hM3, length_setN, hlenM2]
  have hM0q : getN M0 qindex = q1 := by
    rw [hM0, getN_setN_ne _ _ _ _ hne0]; exact hL1q
  have hM1q : getN M1 qindex = q1 := by
    rw [hM1, getN_setN_ne _ _ _ _ hne1]; exact hM0q
  have hM2q : getN M2 qindex = q1 := by
    rw [hM2, getN_setN_ne _ _ _ _ hne2]; exact hM1q
  have hM3q : getN M3 qindex = q1 := by
    rw [hM3, getN_setN_ne _ _ _ _ hne3]; exact hM2q
  have hfree1 : set_free_quad_node t1 ((f : Nat) : Int) = Except.ok
      { t1 with all_quad_node := setN M3 qindex { q1 with first_child := -1, total_entity := 0 },
                free_quad_node_index := ((f : Nat) : Int),
                num_quad_node_in_use := t1.num_quad_node_in_use - 4 } := by
    unfold set_free_quad_node
    rw [if_neg (by omega : ¬ (((f : Nat) : Int) - 1) % 4 ≠ 0)]
    have hlen1i : t1.all_quad_node.length = t.all_quad_node.length := hlen1
    rw [show pyNorm t1.all_quad_node.length ((f : Nat) : Int) = some f by
      rw [hlen1i]; exact pyNorm_coe (by omega)]
    dsimp only
    have hqnf : (pyGet t1.all_quad_node ((f : Nat) : Int)).getD default = u := by
      show (pyGet L1 ((f : Nat) : Int)).getD default = u
      rw [pyGet_coe (show (f : Nat) < L1.length by rw [hlen1]; omega)]
      simpa using hL1f 0 (by omega)
    rw [hqnf]
    rw [show pyNorm t1.all_quad_node.length ((QuadNode.update qindex).parent_index : Int) =
        some qindex by
      rw [hlen1i]; exact pyNorm_coe (by simpa [QuadNode.update] using hqlt)]
    dsimp only
    -- the four freeing steps
    rw [freeStep_eq t1.free_quad_node_index 0
        (by show (getN L1 qindex).first_child = _; rw [hL1q]) (by rw [hlen1]; omega)]
    dsimp only
    rw [show setN t1.all_quad_node (f + 0) ((getN t1.all_quad_node (f + 0)).set_free
        t1.free_quad_node_index) = M0 by
      show setN L1 (f + 0) ((getN L1 (f + 0)).set_free F2) = M0
      rw [hL1f 0 (by omega)]]
    rw [freeStep_eq t1.free_quad_node_index 1
        (by show (getN M0 qindex).first_child = _; rw [hM0q]) (by rw [hlenM0]; omega)]
    dsimp only
    rw [show setN M0 (f + 1) ((getN M0 (f + 1)).set_free t1.free_quad_node_index) = M1 by
      rw [show getN M0 (f + 1) = u by
        rw [hM0, getN_setN_ne _ _ _ _ (by omega)]; exact hL1f 1 (by omega)]]
    rw [freeStep_eq t1.free_quad_node_index 2
        (by show (getN M1 qindex).first_child = _; rw [hM1q]) (by rw [hlenM1]; omega)]
    dsimp only
    rw [show setN M1 (f + 2) ((getN M1 (f + 2)).set_free t1.free_quad_node_index) = M2 by
      rw [show getN M1 (f + 2) = u by
        rw [hM1, getN_setN_ne _ _ _ _ (by omega), hM0, getN_setN_ne _ _ _ _ (by omega)]
        exact hL1f 2 (by omega)]]
    rw [freeStep_eq t1.free_quad_node_index 3
        (by show (getN M2 qindex).first_child = _; rw [hM2q]) (by rw [hlenM2]; omega)]
    dsimp only
    rw [show setN M2 (f + 3) ((getN M2 (f + 3)).set_free t1.free_quad_node_index) = M3 by
      rw [show getN M2 (f + 3) = u by
        rw [hM2, getN_setN_ne _ _ _ _ (by omega), hM1, getN_setN_ne _ _ _ _ (by omega),
            hM0, getN_setN_ne _ _ _ _ (by omega)]
        exact hL1f 3 (by omega)]]
    rw [hM3q]
  refine ⟨t1, _, hbranch, rfl, ?_, hfree1, ?_, ?_, ?_⟩
  · show (getN L1 qindex).first_child = (f : Int)
    rw [hL1q]
  · show ((f : Nat) : Int) = t.free_quad_node_index
    rw [hfree]
  · show t.num_quad_node_in_use + 4 - 4 = t.num_quad_node_in_use
    ring
  · show getN (setN M3 qindex { q1 with first_child := -1, total_entity := 0 }) qindex = qn0
    rw [getN_setN_self _ _ _ (by rw [hlenM3]; omega), ← hfc, ← hte]

/-- C3, counterexample to the original statement: on a fresh tree (empty free
list) the split/free round trip does *not* restore the free-list head — it
leaves the head at the newly created block's base index 1 instead of `-1`. -/
theorem claim3_counterexample :
    ((set_branch qtB 0).bind fun u => (set_free_quad_node u 1).toOption).map
      QuadTree.free_quad_node_index = some 1 ∧
    qtB.free_quad_node_index = -1 ∧ ((1 : Int) ≠ -1) := by
  exact ⟨by with_unfolding_all rfl, rfl, by decide⟩

/-- C3, witness: the amended round trip applied to `qtE` at the empty leaf
slot 1, with the free-list head at block 5. -/
theorem claim3_witness :
    ∃ t1 t2, set_branch qtE 1 = some t1 ∧
      t1.free_quad_node_index = (getN qtE.all_quad_node 5).first_child ∧
      (getN t1.all_quad_node 1).first_child = ((5 : Nat) : Int) ∧
      set_free_quad_node t1 ((5 : Nat) : Int) = Except.ok t2 ∧
      t2.free_quad_node_index = qtE.free_quad_node_index ∧
      t2.num_quad_node_in_use = qtE.num_quad_node_in_use ∧
      getN t2.all_quad_node 1 = getN qtE.all_quad_node 1 :=
  claim3_round_trip qtE 1 5 (by decide) (by decide) (by decide) (by decide)
    (by decide) (by decide) (by decide)

/-! ### The pool invariant (claims C4 and C9)

The structural invariant of reachable pool states: the pool length stays
`1 + 4k`; every in-use branch owns a contiguous, in-use, back-linked block of
four children; the free list is a chain of disjoint 4-blocks of unused slots
threaded through `first_child`; and a depth measure certifies that child
links never cycle. -/

/-- Claim C4's property: every in-use branch node has its 4 children at the
contiguous indices `first_child .. first_child+3`, each child `in_use` and
back-linked to the branch via `parent_index` (the block also being aligned
and in range). -/
def branchOk (nodes : List QuadNode) : Prop :=
  ∀ i, i < nodes.length → (getN nodes i).in_use = true →
    (getN nodes i).is_branch = true →
    ∃ f : Nat, (getN nodes i).first_child = (f : Int) ∧ f % 4 = 1 ∧
      f + 3 < nodes.length ∧
      ∀ k, k < 4 → (getN nodes (f + k)).in_use = true ∧
        (getN nodes (f + k)).parent_index = i

/-- The free list: a chain of aligned, in-range, unused 4-blocks, each linked
to the next through its base slot's `first_child`, with pairwise disjoint
blocks. -/
inductive FreeChain (nodes : List QuadNode) : Int → List Nat → Prop where
  | nil : FreeChain nodes (-1) []
  | cons (b : Nat) (L : List Nat) :
      b % 4 = 1 → b + 3 < nodes.length →
      (∀ k, k < 4 → (getN nodes (b + k)).in_use = false) →
      FreeChain nodes ((getN nodes b).first_child) L →
      (∀ k, k < 4 → ∀ j ∈ L, ∀ m, m < 4 → b + k ≠ j + m) →
      FreeChain nodes ((b : Nat) : Int) (b :: L)

/-- A depth measure certifying acyclicity of the child links: every in-use
branch's children sit one level below it. -/
def ChildDepth (nodes : List QuadNode) (d : Nat → Nat) : Prop :=
  ∀ (i f : Nat), i < nodes.length → (getN nodes i).in_use = true →
    (getN nodes i).is_branch = true → (getN nodes i).first_child = (f : Int) →
    ∀ k, k < 4 → d (f + k) = d i + 1

/-- The full pool invariant, with an explicit depth measure. -/
structure InvP (t : QuadTree) (d : Nat → Nat) : Prop where
  lenmod : t.all_quad_node.length % 4 = 1
  branches : branchOk t.all_quad_node
  chain : ∃ L, FreeChain t.all_quad_node t.free_quad_node_index L
  depth : ChildDepth t.all_quad_node d

/-- The pool invariant. -/
def Inv (t : QuadTree) : Prop := ∃ d, InvP t d

/-- The contract under which `set_free_quad_node` is invoked (directly or
from `clean_up`): the argument is the base of its parent's child block, the
parent being an in-use branch. -/
def sfPre (t : QuadTree) (f : Nat) : Prop :=
  f < t.all_quad_node.length ∧
  (getN t.all_quad_node f).parent_index < t.all_quad_node.length ∧
  (getN t.all_quad_node ((getN t.all_quad_node f).parent_index)).in_use = true ∧
  (getN t.all_quad_node ((getN t.all_quad_node f).parent_index)).is_branch = true ∧
  (getN t.all_quad_node ((getN t.all_quad_node f).parent_index)).first_child = (f : Int)

/-- The tree states produced by the tree's operations: a fresh tree,
splitting an in-use leaf, freeing a block under the documented contract, and
cleanup. -/
inductive Reachable : QuadTree → Prop where
  | init (s : ℚ × ℚ) (md : Nat) : Reachable (QuadTree.init s md)
  | split {t t2 : QuadTree} {i : Nat} :
      Reachable t → i < t.all_quad_node.length →
      (getN t.all_quad_node i).in_use = true →
      (getN t.all_quad_node i).is_leaf = true →
      set_branch t i = some t2 → Reachable t2
  | free {t t2 : QuadTree} {f : Nat} :
      Reachable t → sfPre t f →
      set_free_quad_node t ((f : Nat) : Int) = Except.ok t2 → Reachable t2
  | clean {t t2 : QuadTree} :
      Reachable t → clean_up t = some t2 → Reachable t2

/-! #### Rank: the return value `clean_unused_qnode` reports for a node -/

/-- `0` for a node that is not in use or a leaf holding entities, else `1` —
exactly the guard of `clean_unused_qnode`. -/
def rankB (n : QuadNode) : Nat := if cleanGuard n then 0 else 1

def rank (t : QuadTree) (i : Nat) : Nat := rankB (getN t.all_quad_node i)

theorem rankB_le_one (n : QuadNode) : rankB n ≤ 1 := by
  unfold rankB
  split <;> omega

/-! #### Monotone state evolution during a cleanup pass -/

/-- How one slot can evolve during a cleanup pass: unchanged, freed (link and
entity fields arbitrary, `in_use` off, parent kept), or collapsed from an
in-use branch to an in-use empty leaf (child pointer arbitrary — the root
quirk writes `1` there). -/
def MonoN (a b : QuadNode) : Prop :=
  a = b ∨
  (∃ x z, b = ⟨x, a.parent_index, z, false⟩) ∨
  (a.in_use = true ∧ a.is_branch = true ∧ ∃ y, b = ⟨y, a.parent_index, 0, true⟩)

def Mono (t t2 : QuadTree) : Prop :=
  t2.all_quad_node.length = t.all_quad_node.length ∧
  ∀ i, i < t.all_quad_node.length →
    MonoN (getN t.all_quad_node i) (getN t2.all_quad_node i)

theorem MonoN.same (a : QuadNode) : MonoN a a := Or.inl (Eq.refl a)

theorem Mono.refl (t : QuadTree) : Mono t t := ⟨Eq.refl _, fun i _ => MonoN.same _⟩

theorem MonoN_trans {a b c : QuadNode} (h1 : MonoN a b) (h2 : MonoN b c) :
    MonoN a c := by
  rcases h1 with rfl | ⟨x, z, rfl⟩ | ⟨hu, hb, y, rfl⟩
  · exact h2
  · rcases h2 with rfl | ⟨x2, z2, h⟩ | ⟨hu2, _, _, h⟩
    · exact Or.inr (Or.inl ⟨x, z, rfl⟩)
    · exact Or.inr (Or.inl ⟨x2, z2, h⟩)
    · exact absurd hu2 (by simp)
  · rcases h2 with rfl | ⟨x2, z2, h⟩ | ⟨hu2, hb2, y2, h⟩
    · exact Or.inr (Or.inr ⟨hu, hb, y, rfl⟩)
    · exact Or.inr (Or.inl ⟨x2, z2, h⟩)
    · exact absurd hb2 (by simp [QuadNode.is_branch])

theorem Mono_trans {t1 t2 t3 : QuadTree} (h1 : Mono t1 t2) (h2 : Mono t2 t3) :
    Mono t1 t3 := by
  refine ⟨h2.1.trans h1.1, fun i hi => ?_⟩
  exact MonoN_trans (h1.2 i hi) (h2.2 i (h1.1 ▸ hi))

theorem MonoN.parent {a b : QuadNode} (h : MonoN a b) :
    b.parent_index = a.parent_index := by
  rcases h with rfl | ⟨x, z, rfl⟩ | ⟨_, _, y, rfl⟩ <;> rfl

theorem MonoN_rank {a b : QuadNode} (h : MonoN a b) : rankB b ≤ rankB a := by
  rcases h with rfl | ⟨x, z, rfl⟩ | ⟨hu, hb, y, rfl⟩
  · exact le_refl _
  · simp [rankB, cleanGuard]
  · have h1 : rankB a = 1 := by
      have hl : a.is_leaf = false := by
        simp only [QuadNode.is_branch, decide_eq_true_eq] at hb
        simp [QuadNode.is_leaf, hb]
      simp [rankB, cleanGuard, hu, hl]
    have h2 : rankB (⟨y, a.parent_index, 0, true⟩ : QuadNode) = 1 := by
      simp [rankB, cleanGuard, QuadNode.is_leaf]
    omega

theorem Mono_rank {t t2 : QuadTree} (h : Mono t t2) {i : Nat}
    (hi : i < t.all_quad_node.length) : rank t2 i ≤ rank t i :=
  MonoN_rank (h.2 i hi)

/-- A `FreeChain` only looks at the records of its own blocks' slots, so it
transports along any update that leaves those slots (and the length)
unchanged. -/
theorem FreeChain_congr {nodes nodes2 : List QuadNode} {fhead : Int} {L : List Nat}
    (hlen : nodes2.length = nodes.length)
    (h : FreeChain nodes fhead L)
    (hsame : ∀ b ∈ L, ∀ k, k < 4 → getN nodes2 (b + k) = getN nodes (b + k)) :
    FreeChain nodes2 fhead L := by
  induction h with
  | nil => exact FreeChain.nil
  | cons b L hb4 hblt hbuse hlink hdisj ih =>
    have hb : ∀ k, k < 4 → getN nodes2 (b + k) = getN nodes (b + k) :=
      fun k hk => hsame b (List.mem_cons_self _ _) k hk
    have hb0 : getN nodes2 b = getN nodes b := by
      have := hb 0 (by omega)
      simpa using this
    refine ?_
    have htail : FreeChain nodes2 ((getN nodes2 b).first_child) L := by
      rw [hb0]
      exact ih fun b2 hb2 k hk => hsame b2 (List.mem_cons_of_mem _ hb2) k hk
    exact FreeChain.cons b L hb4 (by omega) (fun k hk => (hb k hk) ▸ hbuse k hk)
      htail hdisj

/-! #### Stability: states on which a cleanup pass is the identity -/

/-- `stableN fuel t i`: running `clean_unused_qnode` at `i` with this fuel
changes nothing and returns `rank t i`.  A node qualifies when it reports `0`,
is an in-use non-branch that keeps reporting `1`, or is an in-use branch whose
children are all stable but do not all report `1`. -/
def stableN : Nat → QuadTree → Nat → Prop
  | 0, _, _ => False
  | fuel + 1, t, i =>
    i < t.all_quad_node.length ∧
    (cleanGuard (getN t.all_quad_node i) = true ∨
     (cleanGuard (getN t.all_quad_node i) = false ∧
      (getN t.all_quad_node i).is_branch = false) ∨
     (cleanGuard (getN t.all_quad_node i) = false ∧
      (getN t.all_quad_node i).is_branch = true ∧
      ∃ f : Nat, (getN t.all_quad_node i).first_child = (f : Int) ∧
        (∀ k, k < 4 → stableN fuel t (f + k)) ∧
        rank t (f + 0) + rank t (f + 1) + rank t (f + 2) + rank t (f + 3) ≠ 4))

theorem stableN_lt {fuel : Nat} {t : QuadTree} {i : Nat} (h : stableN fuel t i) :
    i < t.all_quad_node.length := by
  cases fuel with
  | zero => exact absurd h (by simp [stableN])
  | succ n => exact h.1

/-- On a stable node, `clean_unused_qnode` mutates nothing and returns the
node's rank. -/
theorem stable_clean : ∀ (fuel : Nat) (t : QuadTree) (i : Nat),
    stableN fuel t i → cleanAux fuel t ((i : Nat) : Int) = some (t, rank t i) := by
  intro fuel
  induction fuel with
  | zero => intro t i h; exact absurd h (by simp [stableN])
  | succ fuel ih =>
    intro t i h
    obtain ⟨hi, hcase⟩ := h
    simp only [cleanAux]
    rw [pyNorm_coe hi]
    dsimp only
    rcases hcase with hg | ⟨hg, hbr⟩ | ⟨hg, hbr, f, hfc, hstab, hsum⟩
    · rw [if_pos hg]
      simp [rank, rankB, hg]
    · rw [if_neg (by simp [hg]), if_neg (by simp [hbr])]
      simp [rank, rankB, hg]
    · rw [if_neg (by simp [hg]), if_pos hbr]
      rw [hfc]
      rw [show ((f : Nat) : Int) + 0 = ((f + 0 : Nat) : Int) by push_cast; ring]
      rw [ih t (f + 0) (hstab 0 (by omega))]
      dsimp only
      rw [show ((f : Nat) : Int) + 1 = ((f + 1 : Nat) : Int) by push_cast; ring]
      rw [ih t (f + 1) (hstab 1 (by omega))]
      dsimp only
      rw [show ((f : Nat) : Int) + 2 = ((f + 2 : Nat) : Int) by push_cast; ring]
      rw [ih t (f + 2) (hstab 2 (by omega))]
      dsimp only
      rw [show ((f : Nat) : Int) + 3 = ((f + 3 : Nat) : Int) by push_cast; ring]
      rw [ih t (f + 3) (hstab 3 (by omega))]
      dsimp only
      rw [if_neg hsum]
      simp [rank, rankB, hg]

/-- Stability transports along the monotone evolution a cleanup pass
performs. -/
theorem stable_mono : ∀ (fuel : Nat) (t t2 : QuadTree) (i : Nat),
    stableN fuel t i → Mono t t2 → stableN fuel t2 i := by
  intro fuel
  induction fuel with
  | zero => intro t t2 i h _; exact absurd h (by simp [stableN])
  | succ fuel ih =>
    intro t t2 i h hm
    obtain ⟨hi, hcase⟩ := h
    refine ⟨by rw [hm.1]; exact hi, ?_⟩
    have hMN := hm.2 i hi
    rcases hcase with hg | ⟨hg, hbr⟩ | ⟨hg, hbr, f, hfc, hstab, hsum⟩
    · rcases hMN with heq | ⟨x, z, hb2⟩ | ⟨hu, hb, y, hb2⟩
      · exact Or.inl (heq ▸ hg)
      · exact Or.inl (by rw [hb2]; simp [cleanGuard])
      · exfalso
        have hl : (getN t.all_quad_node i).is_leaf = false := by
          simp only [QuadNode.is_branch, decide_eq_true_eq] at hb
          simp [QuadNode.is_leaf, hb]
        rw [cleanGuard, hu, hl] at hg
        simp at hg
    · rcases hMN with heq | ⟨x, z, hb2⟩ | ⟨hu, hb, y, hb2⟩
      · exact Or.inr (Or.inl ⟨heq ▸ hg, heq ▸ hbr⟩)
      · exact Or.inl (by rw [hb2]; simp [cleanGuard])
      · exact absurd hb (by simp [hbr])
    · rcases hMN with heq | ⟨x, z, hb2⟩ | ⟨hu, hb, y, hb2⟩
      · refine Or.inr (Or.inr ⟨heq ▸ hg, heq ▸ hbr, f, heq ▸ hfc, ?_, ?_⟩)
        · intro k hk
          exact ih t t2 (f + k) (hstab k hk) hm
        · have hr : ∀ k, k < 4 → rank t2 (f + k) ≤ rank t (f + k) :=
            fun k hk => Mono_rank hm (stableN_lt (hstab k hk))
          have h0 := hr 0 (by omega)
          have h1 := hr 1 (by omega)
          have h2 := hr 2 (by omega)
          have h3 := hr 3 (by omega)
          have b0 := rankB_le_one (getN t.all_quad_node (f + 0))
          have b1 := rankB_le_one (getN t.all_quad_node (f + 1))
          have b2 := rankB_le_one (getN t.all_quad_node (f + 2))
          have b3 := rankB_le_one (getN t.all_quad_node (f + 3))
          simp only [rank] at *
          omega
      · exact Or.inl (by rw [hb2]; simp [cleanGuard])
      · refine Or.inr (Or.inl ⟨?_, ?_⟩)
        · rw [hb2]; simp [cleanGuard, QuadNode.is_leaf]
        · rw [hb2]; simp [QuadNode.is_branch]

/-! #### Freeing a block under the invariant -/

theorem FreeChain_mem_lt {nodes : List QuadNode} {fhead : Int} {L : List Nat}
    (h : FreeChain nodes fhead L) : ∀ b ∈ L, b + 3 < nodes.length := by
  induction h with
  | nil => simp
  | cons b L hb4 hblt hbuse hlink hdisj ih =>
    intro b2 hb2
    rcases List.mem_cons.mp hb2 with rfl | hb2
    · exact hblt
    · exact ih b2 hb2

theorem FreeChain_unused {nodes : List QuadNode} {fhead : Int} {L : List Nat}
    (h : FreeChain nodes fhead L) :
    ∀ b ∈ L, ∀ k, k < 4 → (getN nodes (b + k)).in_use = false := by
  induction h with
  | nil => simp
  | cons b L hb4 hblt hbuse hlink hdisj ih =>
    intro b2 hb2 k hk
    rcases List.mem_cons.mp hb2 with rfl | hb2
    · exact hbuse k hk
    · exact ih b2 hb2 k hk

/-- Freeing the child block of an in-use branch `p` under the invariant: the
run succeeds and the resulting state is described slot by slot; the invariant
is preserved (with the same depth measure) and the evolution is monotone. -/
theorem set_free_ok (t : QuadTree) (d : Nat → Nat) (p f : Nat)
    (hinv : InvP t d)
    (hp : p < t.all_quad_node.length)
    (hpu : (getN t.all_quad_node p).in_use = true)
    (hpb : (getN t.all_quad_node p).is_branch = true)
    (hpf : (getN t.all_quad_node p).first_child = (f : Int))
    (hparent : (getN t.all_quad_node f).parent_index = p) :
    ∃ t5, set_free_quad_node t ((f : Nat) : Int) = Except.ok t5 ∧
      t5.all_quad_node.length = t.all_quad_node.length ∧
      t5.free_quad_node_index = ((f : Nat) : Int) ∧
      t5.num_quad_node_in_use = t.num_quad_node_in_use - 4 ∧
      getN t5.all_quad_node p =
        ⟨-1, (getN t.all_quad_node p).parent_index, 0, true⟩ ∧
      (∀ k, k < 4 → getN t5.all_quad_node (f + k) =
        ⟨t.free_quad_node_index, (getN t.all_quad_node (f + k)).parent_index,
         (getN t.all_quad_node (f + k)).total_entity, false⟩) ∧
      (∀ j, j < t.all_quad_node.length → j ≠ p → (∀ k, k < 4 → j ≠ f + k) →
        getN t5.all_quad_node j = getN t.all_quad_node j) ∧
      InvP t5 d ∧ Mono t t5 := by
  -- unpack the branch facts at `p`
  obtain ⟨f2, hf2c, hf24, hf2lt, hf2ch⟩ := hinv.branches p hp hpu hpb
  have hff2 : f2 = f := by
    rw [hpf] at hf2c
    exact_mod_cast hf2c.symm
  rw [hff2] at hf24 hf2lt hf2ch
  -- the block avoids `p` thanks to the depth measure
  have hnotp : ∀ k, k < 4 → f + k ≠ p := by
    intro k hk he
    have := hinv.depth p f hp hpu hpb hpf k hk
    rw [he] at this
    omega
  have hflt : f < t.all_quad_node.length := by omega
  set link : Int := t.free_quad_node_index with hlink
  set w : Nat → QuadNode :=
    fun k => (getN t.all_quad_node (f + k)).set_free link with hw
  set M0 : List QuadNode := setN t.all_quad_node (f + 0) (w 0) with hM0
  set M1 : List QuadNode := setN M0 (f + 1) (w 1) with hM1
  set M2 : List QuadNode := setN M1 (f + 2) (w 2) with hM2
  set M3 : List QuadNode := setN M2 (f + 3) (w 3) with hM3
  have hlen0 : M0.length = t.all_quad_node.length := length_setN ..
  have hlen1 : M1.length = t.all_quad_node.length := by rw [hM1, length_setN, hlen0]
  have hlen2 : M2.length = t.all_quad_node.length := by rw [hM2, length_setN, hlen1]
  have hlen3 : M3.length = t.all_quad_node.length := by rw [hM3, length_setN, hlen2]
  have hM0p : getN M0 p = getN t.all_quad_node p :=
    getN_setN_ne _ _ _ _ (hnotp 0 (by omega))
  have hM1p : getN M1 p = getN t.all_quad_node p := by
    rw [hM1, getN_setN_ne _ _ _ _ (hnotp 1 (by omega))]; exact hM0p
  have hM2p : getN M2 p = getN t.all_quad_node p := by
    rw [hM2, getN_setN_ne _ _ _ _ (hnotp 2 (by omega))]; exact hM1p
  have hM3p : getN M3 p = getN t.all_quad_node p := by
    rw [hM3, getN_setN_ne _ _ _ _ (hnotp 3 (by omega))]; exact hM2p
  set pnew : QuadNode :=
    ⟨-1, (getN t.all_quad_node p).parent_index, 0, (getN t.all_quad_node p).in_use⟩
    with hpnew
  set L4 : List QuadNode := setN M3 p pnew with hL4
  have hlen4 : L4.length = t.all_quad_node.length := by rw [hL4, length_setN, hlen3]
  set t5 : QuadTree :=
    { t with all_quad_node := L4,
             free_quad_node_index := ((f : Nat) : Int),
             num_quad_node_in_use := t.num_quad_node_in_use - 4 } with ht5
  -- run the function
  have hrun : set_free_quad_node t ((f : Nat) : Int) = Except.ok t5 := by
    unfold set_free_quad_node
    rw [if_neg (by omega : ¬ (((f : Nat) : Int) - 1) % 4 ≠ 0)]
    rw [pyNorm_coe hflt]
    dsimp only
    rw [show (pyGet t.all_quad_node ((f : Nat) : Int)).getD default =
        getN t.all_quad_node f by rw [pyGet_coe hflt]; rfl]
    rw [hparent, pyNorm_coe hp]
    dsimp only
    rw [freeStep_eq t.free_quad_node_index 0 hpf (by omega)]
    dsimp only
    rw [show setN t.all_quad_node (f + 0)
        ((getN t.all_quad_node (f + 0)).set_free t.free_quad_node_index) = M0 from rfl]
    rw [freeStep_eq t.free_quad_node_index 1
      (show (getN M0 p).first_child = ((f : Nat) : Int) by rw [hM0p]; exact hpf)
      (by rw [hlen0]; omega)]
    dsimp only
    rw [show setN M0 (f + 1)
        ((getN M0 (f + 1)).set_free t.free_quad_node_index) = M1 by
      rw [show getN M0 (f + 1) = getN t.all_quad_node (f + 1) by
        rw [hM0, getN_setN_ne _ _ _ _ (by omega)]]]
    rw [freeStep_eq t.free_quad_node_index 2
      (show (getN M1 p).first_child = ((f : Nat) : Int) by rw [hM1p]; exact hpf)
      (by rw [hlen1]; omega)]
    dsimp only
    rw [show setN M1 (f + 2)
        ((getN M1 (f + 2)).set_free t.free_quad_node_index) = M2 by
      rw [show getN M1 (f + 2) = getN t.all_quad_node (f + 2) by
        rw [hM1, getN_setN_ne _ _ _ _ (by omega), hM0, getN_setN_ne _ _ _ _ (by omega)]]]
    rw [freeStep_eq t.free_quad_node_index 3
      (show (getN M2 p).first_child = ((f : Nat) : Int) by rw [hM2p]; exact hpf)
      (by rw [hlen2]; omega)]
    dsimp only
    rw [show setN M2 (f + 3)
        ((getN M2 (f + 3)).set_free t.free_quad_node_index) = M3 by
      rw [show getN M2 (f + 3) = getN t.all_quad_node (f + 3) by
        rw [hM2, getN_setN_ne _ _ _ _ (by omega), hM1, getN_setN_ne _ _ _ _ (by omega),
            hM0, getN_setN_ne _ _ _ _ (by omega)]]]
    rw [hM3p]
  -- the block's slots after the run
  have hblock : ∀ k, k < 4 → getN L4 (f + k) =
      ⟨link, (getN t.all_quad_node (f + k)).parent_index,
       (getN t.all_quad_node (f + k)).total_entity, false⟩ := by
    intro k hk
    have hwk : (w k) = ⟨link, (getN t.all_quad_node (f + k)).parent_index,
        (getN t.all_quad_node (f + k)).total_entity, false⟩ := rfl
    interval_cases k
    · rw [hL4, getN_setN_ne _ _ _ _ (fun hh => hnotp 0 (by omega) hh.symm), hM3,
          getN_setN_ne _ _ _ _ (by omega), hM2, getN_setN_ne _ _ _ _ (by omega),
          hM1, getN_setN_ne _ _ _ _ (by omega), hM0,
          getN_setN_self _ _ _ (by omega)]
      rfl
    · rw [hL4, getN_setN_ne _ _ _ _ (fun hh => hnotp 1 (by omega) hh.symm), hM3,
          getN_setN_ne _ _ _ _ (by omega), hM2, getN_setN_ne _ _ _ _ (by omega),
          hM1, getN_setN_self _ _ _ (by rw [hlen0]; omega)]
      rfl
    · rw [hL4, getN_setN_ne _ _ _ _ (fun hh => hnotp 2 (by omega) hh.symm), hM3,
          getN_setN_ne _ _ _ _ (by omega), hM2,
          getN_setN_self _ _ _ (by rw [hlen1]; omega)]
      rfl
    · rw [hL4, getN_setN_ne _ _ _ _ (fun hh => hnotp 3 (by omega) hh.symm), hM3,
          getN_setN_self _ _ _ (by rw [hlen2]; omega)]
      rfl
  have hpslot : getN L4 p = pnew := by
    rw [hL4, getN_setN_self _ _ _ (by rw [hlen3]; exact hp)]
  have hother : ∀ j, j < t.all_quad_node.length → j ≠ p → (∀ k, k < 4 → j ≠ f + k) →
      getN L4 j = getN t.all_quad_node j := by
    intro j hj hjp hjf
    rw [hL4, getN_setN_ne _ _ _ _ (fun hh => hjp hh.symm), hM3,
        getN_setN_ne _ _ _ _ (fun hh => hjf 3 (by omega) hh.symm), hM2,
        getN_setN_ne _ _ _ _ (fun hh => hjf 2 (by omega) hh.symm), hM1,
        getN_setN_ne _ _ _ _ (fun hh => hjf 1 (by omega) hh.symm), hM0,
        getN_setN_ne _ _ _ _ (fun hh => hjf 0 (by omega) hh.symm)]
  have hpnew_eq : getN t5.all_quad_node p =
      ⟨-1, (getN t.all_quad_node p).parent_index, 0, true⟩ := by
    show getN L4 p = _
    rw [hpslot, hpnew, hpu]
  -- Mono
  have hmono : Mono t t5 := by
    refine ⟨hlen4, fun j hj => ?_⟩
    by_cases hjp : j = p
    · subst hjp
      refine Or.inr (Or.inr ⟨hpu, hpb, -1, ?_⟩)
      show getN L4 j = _
      rw [hpslot, hpnew, hpu]
    · by_cases hjf : ∃ k, k < 4 ∧ j = f + k
      · obtain ⟨k, hk, rfl⟩ := hjf
        refine Or.inr (Or.inl ⟨link, (getN t.all_quad_node (f + k)).total_entity, ?_⟩)
        show getN L4 (f + k) = _
        rw [hblock k hk]
      · have hcond : ∀ k, k < 4 → j ≠ f + k := fun k hk he => hjf ⟨k, hk, he⟩
        exact Or.inl (hother j hj hjp hcond).symm
  -- the invariant is preserved
  have hbranches : branchOk t5.all_quad_node := by
    intro i2 hi2 hu2 hb2
    rw [hlen4] at hi2
    by_cases hip : i2 = p
    · exfalso
      subst hip
      rw [hpnew_eq] at hb2
      simp [QuadNode.is_branch] at hb2
    · by_cases hif : ∃ k, k < 4 ∧ i2 = f + k
      · exfalso
        obtain ⟨k, hk, rfl⟩ := hif
        have := hblock k hk
        rw [show getN t5.all_quad_node (f + k) = getN L4 (f + k) from rfl, this] at hu2
        simp at hu2
      · have hne2 : ∀ k, k < 4 → i2 ≠ f + k := fun k hk he => hif ⟨k, hk, he⟩
        have hsame : getN t5.all_quad_node i2 = getN t.all_quad_node i2 :=
          hother i2 hi2 hip hne2
        rw [hsame] at hu2 hb2 ⊢
        obtain ⟨g, hgc, hg4, hglt, hgch⟩ := hinv.branches i2 hi2 hu2 hb2
        refine ⟨g, hgc, hg4, by rw [hlen4]; exact hglt, ?_⟩
        intro k hk
        by_cases hgp : g + k = p
        · rw [hgp, hpnew_eq]
          constructor
          · rfl
          · have := (hgch k hk).2
            rw [hgp] at this
            exact this
        · have hgf : ∀ m, m < 4 → g + k ≠ f + m := by
            intro m hm he
            have h1 := (hgch k hk).2
            rw [he] at h1
            have h2 := (hf2ch m hm).2
            rw [h1] at h2
            exact hip h2
          rw [show getN t5.all_quad_node (g + k) = getN t.all_quad_node (g + k) from
            hother (g + k) (by omega) hgp hgf]
          exact hgch k hk
  have hchain : ∃ L, FreeChain t5.all_quad_node t5.free_quad_node_index L := by
    obtain ⟨L, hL⟩ := hinv.chain
    have hLunused := FreeChain_unused hL
    have hLsame : ∀ b ∈ L, ∀ k, k < 4 →
        getN t5.all_quad_node (b + k) = getN t.all_quad_node (b + k) := by
      intro b hb k hk
      have hbuse := hLunused b hb k hk
      refine hother (b + k) ?_ ?_ ?_
      · have := FreeChain_mem_lt hL b hb
        omega
      · intro he
        rw [he] at hbuse
        rw [hbuse] at hpu
        cases hpu
      · intro m hm he
        have := (hf2ch m hm).1
        rw [← he] at this
        rw [this] at hbuse
        cases hbuse
    refine ⟨f :: L, ?_⟩
    show FreeChain L4 ((f : Nat) : Int) (f :: L)
    refine FreeChain.cons f L hf24 (by rw [hlen4]; omega) ?_ ?_ ?_
    · intro k hk
      rw [show getN L4 (f + k) = getN t5.all_quad_node (f + k) from rfl, hblock k hk]
    · rw [show (getN L4 f).first_child = link by
        have := hblock 0 (by omega)
        rw [show getN L4 f = getN L4 (f + 0) by rfl, this]]
      exact FreeChain_congr hlen4 hL hLsame
    · intro k hk j hj m hm he
      have h1 := (hf2ch k hk).1
      have h2 := hLunused j hj m hm
      rw [he] at h1
      rw [h1] at h2
      cases h2
  have hdepth : ChildDepth t5.all_quad_node d := by
    intro i2 g hi2 hu2 hb2 hg2 k hk
    rw [hlen4] at hi2
    by_cases hip : i2 = p
    · exfalso
      subst hip
      rw [hpnew_eq] at hb2
      simp [QuadNode.is_branch] at hb2
    · by_cases hif : ∃ m, m < 4 ∧ i2 = f + m
      · exfalso
        obtain ⟨m, hm, rfl⟩ := hif
        rw [show getN t5.all_quad_node (f + m) = getN L4 (f + m) from rfl,
          hblock m hm] at hu2
        cases hu2
      · have hne2 : ∀ m, m < 4 → i2 ≠ f + m := fun m hm he => hif ⟨m, hm, he⟩
        have hsame : getN t5.all_quad_node i2 = getN t.all_quad_node i2 :=
          hother i2 hi2 hip hne2
        rw [hsame] at hu2 hb2 hg2
        exact hinv.depth i2 g hi2 hu2 hb2 hg2 k hk
  exact ⟨t5, hrun, hlen4, rfl, rfl, hpnew_eq, (fun k hk => hblock k hk),
    hother, ⟨by show L4.length % 4 = 1; rw [hlen4]; exact hinv.lenmod,
      hbranches, hchain, hdepth⟩, hmono⟩

/-! #### Splitting a leaf under the invariant -/

theorem FreeChain_head_pos {nodes : List QuadNode} {fh : Int} {L : List Nat}
    (h : FreeChain nodes fh L) (hne : fh ≠ -1) :
    ∃ b L2, L = b :: L2 ∧ fh = ((b : Nat) : Int) ∧ b % 4 = 1 ∧
      b + 3 < nodes.length ∧
      (∀ k, k < 4 → (getN nodes (b + k)).in_use = false) ∧
      FreeChain nodes ((getN nodes b).first_child) L2 ∧
      (∀ k, k < 4 → ∀ j ∈ L2, ∀ m, m < 4 → b + k ≠ j + m) := by
  cases h with
  | nil => exact absurd rfl hne
  | cons b L2 h1 h2 h3 h4 h5 => exact ⟨b, L2, rfl, rfl, h1, h2, h3, h4, h5⟩

theorem set_branch_fresh_eq (t : QuadTree) (i : Nat)
    (hi : i < t.all_quad_node.length)
    (hfree : t.free_quad_node_index = -1) :
    set_branch t i = some
      { t with
        all_quad_node := setN t.all_quad_node i { getN t.all_quad_node i with total_entity := -1, first_child := (t.all_quad_node.length : Int) } ++
            [⟨-1, i, 0, true⟩, ⟨-1, i, 0, true⟩, ⟨-1, i, 0, true⟩, ⟨-1, i, 0, true⟩],
        num_quad_node_in_use := t.num_quad_node_in_use + 4 } := by
  unfold set_branch
  rw [pyGet_coe hi]
  dsimp only
  rw [if_pos hfree]
  rw [getN_setN_self _ _ _ hi, setN_setN_self, length_setN]

theorem set_branch_reuse_eq (t : QuadTree) (i b : Nat)
    (hi : i < t.all_quad_node.length)
    (hfree : t.free_quad_node_index = ((b : Nat) : Int))
    (hblt : b + 3 < t.all_quad_node.length)
    (hbi : ∀ k, k < 4 → b + k ≠ i) :
    set_branch t i = some
      { t with
        all_quad_node := setN (setN (setN (setN (setN t.all_quad_node i { getN t.all_quad_node i with total_entity := -1, first_child := ((b : Nat) : Int) })
            (b + 0) (QuadNode.update i)) (b + 1) (QuadNode.update i))
            (b + 2) (QuadNode.update i)) (b + 3) (QuadNode.update i),
        num_quad_node_in_use := t.num_quad_node_in_use + 4,
        free_quad_node_index := (getN t.all_quad_node b).first_child } := by
  have hpg : ∀ X : QuadNode, pyGet (setN t.all_quad_node i X) ((b : Nat) : Int) =
      some (getN t.all_quad_node b) := by
    intro X
    rw [pyGet_coe (show (b : Nat) < (setN t.all_quad_node i X).length by
      rw [length_setN]; omega)]
    rw [getN_setN_ne _ _ _ _ fun hh => hbi 0 (by omega) (by omega)]
  have hps0 : ∀ l : List QuadNode, l.length = t.all_quad_node.length →
      pySet l (((b : Nat) : Int) + 0) (QuadNode.update i) =
        some (setN l (b + 0) (QuadNode.update i)) := by
    intro l hl
    rw [show ((b : Nat) : Int) + 0 = ((b + 0 : Nat) : Int) by push_cast; ring]
    exact pySet_coe (by omega) _
  have hps1 : ∀ l : List QuadNode, l.length = t.all_quad_node.length →
      pySet l (((b : Nat) : Int) + 1) (QuadNode.update i) =
        some (setN l (b + 1) (QuadNode.update i)) := by
    intro l hl
    rw [show ((b : Nat) : Int) + 1 = ((b + 1 : Nat) : Int) by push_cast; ring]
    exact pySet_coe (by omega) _
  have hps2 : ∀ l : List QuadNode, l.length = t.all_quad_node.length →
      pySet l (((b : Nat) : Int) + 2) (QuadNode.update i) =
        some (setN l (b + 2) (QuadNode.update i)) := by
    intro l hl
    rw [show ((b : Nat) : Int) + 2 = ((b + 2 : Nat) : Int) by push_cast; ring]
    exact pySet_coe (by omega) _
  have hps3 : ∀ l : List QuadNode, l.length = t.all_quad_node.length →
      pySet l (((b : Nat) : Int) + 3) (QuadNode.update i) =
        some (setN l (b + 3) (QuadNode.update i)) := by
    intro l hl
    rw [show ((b : Nat) : Int) + 3 = ((b + 3 : Nat) : Int) by push_cast; ring]
    exact pySet_coe (by omega) _
  unfold set_branch
  rw [pyGet_coe hi]
  dsimp only
  rw [hfree]
  rw [if_neg (by omega : ¬ ((b : Nat) : Int) = -1)]
  rw [getN_setN_self _ _ _ hi, setN_setN_self]
  rw [hpg]
  dsimp only
  rw [hps0 _ (length_setN ..)]
  dsimp only
  rw [hps1 _ (by rw [length_setN, length_setN])]
  dsimp only
  rw [hps2 _ (by rw [length_setN, length_setN, length_setN])]
  dsimp only
  rw [hps3 _ (by rw [length_setN, length_setN, length_setN, length_setN])]

/-- Splitting an in-use leaf preserves the invariant (with an updated depth
measure). -/
theorem set_branch_inv (t : QuadTree) (d : Nat → Nat) (i : Nat) (t2 : QuadTree)
    (hinv : InvP t d)
    (hi : i < t.all_quad_node.length)
    (hu : (getN t.all_quad_node i).in_use = true)
    (hl : (getN t.all_quad_node i).is_leaf = true)
    (hrun : set_branch t i = some t2) :
    ∃ d2, InvP t2 d2 := by
  by_cases hfe : t.free_quad_node_index = -1
  · -- fresh path: four slots appended at the end of the pool
    rw [set_branch_fresh_eq t i hi hfe, Option.some.injEq] at hrun
    subst hrun
    set len : Nat := t.all_quad_node.length with hlendef
    set q1 : QuadNode := { getN t.all_quad_node i with total_entity := -1, first_child := (len : Int) } with hq1def
    set N : List QuadNode := setN t.all_quad_node i q1 ++
      [⟨-1, i, 0, true⟩, ⟨-1, i, 0, true⟩, ⟨-1, i, 0, true⟩, ⟨-1, i, 0, true⟩] with hN
    have hlenN : N.length = len + 4 := by
      rw [hN, List.length_append, length_setN]
      rfl
    have hgetNi : getN N i = q1 := by
      rw [hN, getN_append_lt _ _ _ (by rw [length_setN]; omega)]
      exact getN_setN_self _ _ _ hi
    have hgetNnew : ∀ k, k < 4 → getN N (len + k) = ⟨-1, i, 0, true⟩ := by
      intro k hk
      have : len + k = (setN t.all_quad_node i q1).length + k := by rw [length_setN]
      rw [hN, this, getN_append_right]
      interval_cases k <;> rfl
    have hgetNold : ∀ j, j < len → j ≠ i → getN N j = getN t.all_quad_node j := by
      intro j hj hji
      rw [hN, getN_append_lt _ _ _ (by rw [length_setN]; omega)]
      exact getN_setN_ne _ _ _ _ fun hh => hji hh.symm
    refine ⟨fun j => if j < len then d j else d i + 1, ?_, ?_, ?_, ?_⟩
    · show N.length % 4 = 1
      rw [hlenN]
      have hm4 := hinv.lenmod
      omega
    · intro i2 hi2 hu2 hb2
      rw [hlenN] at hi2
      by_cases hii : i2 = i
      · subst hii
        rw [hgetNi] at hb2 ⊢
        refine ⟨len, rfl, hinv.lenmod, by rw [hlenN]; omega, ?_⟩
        intro k hk
        rw [hgetNnew k hk]
        exact ⟨rfl, rfl⟩
      · by_cases hlt : i2 < len
        · rw [hgetNold i2 hlt hii] at hu2 hb2 ⊢
          obtain ⟨g, hgc, hg4, hglt, hgch⟩ := hinv.branches i2 hlt hu2 hb2
          refine ⟨g, hgc, hg4, by rw [hlenN]; omega, ?_⟩
          intro k hk
          by_cases hgi : g + k = i
          · rw [hgi, hgetNi]
            refine ⟨?_, ?_⟩
            · show (getN t.all_quad_node i).in_use = true
              exact hu
            · show (getN t.all_quad_node i).parent_index = i2
              rw [← hgi]
              exact (hgch k hk).2
          · rw [hgetNold (g + k) (by omega) hgi]
            exact hgch k hk
        · exfalso
          have : i2 - len < 4 := by omega
          have he : i2 = len + (i2 - len) := by omega
          rw [he, hgetNnew (i2 - len) this] at hb2
          simp [QuadNode.is_branch] at hb2
    · refine ⟨[], ?_⟩
      show FreeChain N t.free_quad_node_index []
      rw [hfe]
      exact FreeChain.nil
    · intro i2 g hi2 hu2 hb2 hg2 k hk
      dsimp only
      rw [hlenN] at hi2
      by_cases hii : i2 = i
      · subst hii
        rw [hgetNi] at hg2
        have hgl : g = len := by
          have : ((len : Nat) : Int) = (g : Int) := hg2
          exact_mod_cast this.symm
        subst hgl
        rw [if_neg (by omega), if_pos hi]
      · by_cases hlt : i2 < len
        · rw [hgetNold i2 hlt hii] at hu2 hb2 hg2
          obtain ⟨g2, hgc2, hg42, hglt2, _⟩ := hinv.branches i2 hlt hu2 hb2
          have hgg : g2 = g := by
            rw [hg2] at hgc2
            exact_mod_cast hgc2.symm
          subst hgg
          rw [if_pos (by omega : g2 + k < len), if_pos hlt]
          exact hinv.depth i2 g2 hlt hu2 hb2 hg2 k hk
        · exfalso
          have hlt4 : i2 - len < 4 := by omega
          have he : i2 = len + (i2 - len) := by omega
          rw [he, hgetNnew (i2 - len) hlt4] at hb2
          simp [QuadNode.is_branch] at hb2
  · -- reuse path: the block at the free-list head becomes the children
    obtain ⟨L, hL⟩ := hinv.chain
    obtain ⟨b, L2, hLeq, hfb, hb4, hblt, hbuse, hlink, hdisj⟩ := FreeChain_head_pos hL hfe
    have hbi : ∀ k, k < 4 → b + k ≠ i := by
      intro k hk he
      have hbk := hbuse k hk
      rw [he, hu] at hbk
      cases hbk
    rw [set_branch_reuse_eq t i b hi hfb hblt hbi, Option.some.injEq] at hrun
    subst hrun
    set len : Nat := t.all_quad_node.length with hlendef
    set q1 : QuadNode := { getN t.all_quad_node i with total_entity := -1, first_child := ((b : Nat) : Int) } with hq1def
    set N : List QuadNode := setN (setN (setN (setN (setN t.all_quad_node i q1)
      (b + 0) (QuadNode.update i)) (b + 1) (QuadNode.update i))
      (b + 2) (QuadNode.update i)) (b + 3) (QuadNode.update i) with hN
    have hlenN : N.length = len := by
      rw [hN, length_setN, length_setN, length_setN, length_setN, length_setN]
    have hgetNi : getN N i = q1 := by
      rw [hN, getN_setN_ne _ _ _ _ (hbi 3 (by omega)),
          getN_setN_ne _ _ _ _ (hbi 2 (by omega)),
          getN_setN_ne _ _ _ _ (hbi 1 (by omega)),
          getN_setN_ne _ _ _ _ (hbi 0 (by omega))]
      exact getN_setN_self _ _ _ hi
    have hgetNb : ∀ k, k < 4 → getN N (b + k) = QuadNode.update i := by
      intro k hk
      interval_cases k
      · rw [hN, getN_setN_ne _ _ _ _ (by omega), getN_setN_ne _ _ _ _ (by omega),
            getN_setN_ne _ _ _ _ (by omega)]
        exact getN_setN_self _ _ _ (by rw [length_setN]; omega)
      · rw [hN, getN_setN_ne _ _ _ _ (by omega), getN_setN_ne _ _ _ _ (by omega)]
        exact getN_setN_self _ _ _ (by rw [length_setN, length_setN]; omega)
      · rw [hN, getN_setN_ne _ _ _ _ (by omega)]
        exact getN_setN_self _ _ _ (by
          rw [length_setN, length_setN, length_setN]; omega)
      · rw [hN]
        exact getN_setN_self _ _ _ (by
          rw [length_setN, length_setN, length_setN, length_setN]; omega)
    have hgetNold : ∀ j, j ≠ i → (∀ k, k < 4 → j ≠ b + k) →
        getN N j = getN t.all_quad_node j := by
      intro j hji hjb
      rw [hN, getN_setN_ne _ _ _ _ (fun hh => hjb 3 (by omega) hh.symm),
          getN_setN_ne _ _ _ _ (fun hh => hjb 2 (by omega) hh.symm),
          getN_setN_ne _ _ _ _ (fun hh => hjb 1 (by omega) hh.symm),
          getN_setN_ne _ _ _ _ (fun hh => hjb 0 (by omega) hh.symm)]
      exact getN_setN_ne _ _ _ _ (fun hh => hji hh.symm)
    have hinotb : ¬ (b ≤ i ∧ i ≤ b + 3) := by
      intro ⟨h1, h2⟩
      have : i = b + (i - b) := by omega
      exact hbi (i - b) (by omega) this.symm
    refine ⟨fun j => if b ≤ j ∧ j ≤ b + 3 then d i + 1 else d j, ?_, ?_, ?_, ?_⟩
    · show N.length % 4 = 1
      rw [hlenN]
      exact hinv.lenmod
    · intro i2 hi2 hu2 hb2
      rw [hlenN] at hi2
      by_cases hii : i2 = i
      · subst hii
        rw [hgetNi] at hb2 ⊢
        refine ⟨b, rfl, hb4, by rw [hlenN]; omega, ?_⟩
        intro k hk
        rw [hgetNb k hk]
        exact ⟨rfl, rfl⟩
      · by_cases hib : ∃ k, k < 4 ∧ i2 = b + k
        · exfalso
          obtain ⟨k, hk, rfl⟩ := hib
          rw [hgetNb k hk] at hb2
          simp [QuadNode.is_branch, QuadNode.update] at hb2
        · have hib2 : ∀ k, k < 4 → i2 ≠ b + k := fun k hk he => hib ⟨k, hk, he⟩
          rw [hgetNold i2 hii hib2] at hu2 hb2 ⊢
          obtain ⟨g, hgc, hg4, hglt, hgch⟩ := hinv.branches i2 hi2 hu2 hb2
          refine ⟨g, hgc, hg4, by rw [hlenN]; omega, ?_⟩
          intro k hk
          by_cases hgi : g + k = i
          · rw [hgi, hgetNi]
            refine ⟨hu, ?_⟩
            show (getN t.all_quad_node i).parent_index = i2
            rw [← hgi]
            exact (hgch k hk).2
          · have hgb : ∀ m, m < 4 → g + k ≠ b + m := by
              intro m hm he
              have h1 := (hgch k hk).1
              rw [he] at h1
              rw [hbuse m hm] at h1
              cases h1
            rw [hgetNold (g + k) hgi hgb]
            exact hgch k hk
    · refine ⟨L2, ?_⟩
      show FreeChain N (getN t.all_quad_node b).first_child L2
      refine FreeChain_congr (by rw [hlenN]) hlink ?_
      intro b2 hb2 k hk
      have hb2lt := FreeChain_mem_lt hlink b2 hb2
      have hb2use := FreeChain_unused hlink b2 hb2 k hk
      refine hgetNold (b2 + k) ?_ ?_
      · intro he
        rw [he, hu] at hb2use
        cases hb2use
      · intro m hm he
        exact hdisj m hm b2 hb2 k hk he.symm
    · intro i2 g hi2 hu2 hb2 hg2 k hk
      dsimp only
      rw [hlenN] at hi2
      by_cases hii : i2 = i
      · subst hii
        rw [hgetNi] at hg2
        have hgb : g = b := by
          have : ((b : Nat) : Int) = (g : Int) := hg2
          exact_mod_cast this.symm
        subst hgb
        rw [if_pos (by omega : g ≤ g + k ∧ g + k ≤ g + 3), if_neg hinotb]
      · by_cases hib : ∃ m, m < 4 ∧ i2 = b + m
        · exfalso
          obtain ⟨m, hm, rfl⟩ := hib
          rw [hgetNb m hm] at hb2
          simp [QuadNode.is_branch, QuadNode.update] at hb2
        · have hib2 : ∀ m, m < 4 → i2 ≠ b + m := fun m hm he => hib ⟨m, hm, he⟩
          rw [hgetNold i2 hii hib2] at hu2 hb2 hg2
          obtain ⟨g2, hgc2, hg42, hglt2, hgch2⟩ := hinv.branches i2 hi2 hu2 hb2
          have hgg : g2 = g := by
            rw [hg2] at hgc2
            exact_mod_cast hgc2.symm
          subst hgg
          have hgknotb : ¬ (b ≤ g2 + k ∧ g2 + k ≤ b + 3) := by
            intro ⟨h1, h2⟩
            have he : g2 + k = b + (g2 + k - b) := by omega
            have h3 := (hgch2 k hk).1
            rw [he, hbuse (g2 + k - b) (by omega)] at h3
            cases h3
          have hi2notb : ¬ (b ≤ i2 ∧ i2 ≤ b + 3) := by
            intro ⟨h1, h2⟩
            exact hib ⟨i2 - b, by omega, by omega⟩
          rw [if_neg hgknotb, if_neg hi2notb]
          exact hinv.depth i2 g2 hi2 hu2 hb2 hg2 k hk

/-! #### The cleanup pass: invariant preservation, monotonicity, stability -/

theorem FreeChain_mem_mod {nodes : List QuadNode} {fhead : Int} {L : List Nat}
    (h : FreeChain nodes fhead L) : ∀ b ∈ L, b % 4 = 1 := by
  induction h with
  | nil => simp
  | cons b L hb4 hblt hbuse hlink hdisj ih =>
    intro b2 hb2
    rcases List.mem_cons.mp hb2 with rfl | hb2
    · exact hb4
    · exact ih b2 hb2

theorem cleanGuard_false_in_use {n : QuadNode} (h : cleanGuard n = false) :
    n.in_use = true := by
  revert h
  rw [cleanGuard]
  cases n.in_use <;> simp

/-- The master lemma about one `clean_unused_qnode` call under the invariant:
the invariant survives with the same depth measure, the state evolves
monotonically, the return value bounds the node's final rank, the processed
subtree becomes stable, and slots at depth at most the node's own (other than
the node) are untouched. -/
theorem cleanAux_main : ∀ (fuel : Nat) (t : QuadTree) (d : Nat → Nat) (i : Nat)
    (t2 : QuadTree) (r : Nat),
    InvP t d → i < t.all_quad_node.length →
    cleanAux fuel t ((i : Nat) : Int) = some (t2, r) →
    InvP t2 d ∧ Mono t t2 ∧ r ≤ 1 ∧ rank t2 i ≤ r ∧ stableN fuel t2 i ∧
      (∀ j, j < t.all_quad_node.length → d j ≤ d i → j ≠ i →
        getN t2.all_quad_node j = getN t.all_quad_node j) := by
  intro fuel
  induction fuel with
  | zero => intro t d i t2 r _ _ h; simp [cleanAux] at h
  | succ fuel ih =>
    intro t d i t2 r hinv hi h
    simp only [cleanAux] at h
    rw [pyNorm_coe hi] at h
    dsimp only at h
    by_cases hg : cleanGuard (getN t.all_quad_node i) = true
    · rw [if_pos hg] at h
      have hte : t = t2 ∧ 0 = r := by
        refine ⟨congrArg Prod.fst (Option.some.inj h), congrArg Prod.snd (Option.some.inj h)⟩
      obtain ⟨rfl, rfl⟩ := hte
      refine ⟨hinv, Mono.refl t, by omega, ?_, ⟨hi, Or.inl hg⟩, fun j _ _ _ => rfl⟩
      show rank t i ≤ 0
      simp [rank, rankB, hg]
    · rw [if_neg hg] at h
      have hgf : cleanGuard (getN t.all_quad_node i) = false := by
        revert hg; cases cleanGuard (getN t.all_quad_node i) <;> simp
      have hu : (getN t.all_quad_node i).in_use = true := cleanGuard_false_in_use hgf
      by_cases hbr : (getN t.all_quad_node i).is_branch = true
      · rw [if_pos hbr] at h
        obtain ⟨f, hfc, hf4, hflt, hfch⟩ := hinv.branches i hi hu hbr
        have hd : ∀ k, k < 4 → d (f + k) = d i + 1 :=
          fun k hk => hinv.depth i f hi hu hbr hfc k hk
        have hdne : ∀ k, k < 4 → f + k ≠ i := by
          intro k hk he
          have := hd k hk
          rw [he] at this
          omega
        rw [hfc,
          show ((f : Nat) : Int) + 0 = ((f + 0 : Nat) : Int) by push_cast; ring,
          show ((f : Nat) : Int) + 1 = ((f + 1 : Nat) : Int) by push_cast; ring,
          show ((f : Nat) : Int) + 2 = ((f + 2 : Nat) : Int) by push_cast; ring,
          show ((f : Nat) : Int) + 3 = ((f + 3 : Nat) : Int) by push_cast; ring] at h
        cases h1 : cleanAux fuel t ((f + 0 : Nat) : Int) with
        | none => rw [h1] at h; exact absurd h (by simp)
        | some p1 =>
        obtain ⟨u1, r1⟩ := p1
        rw [h1] at h
        dsimp only at h
        obtain ⟨hinv1, hmono1, hr1, hrank1, hstab1, hfp1⟩ :=
          ih t d (f + 0) u1 r1 hinv (by omega) h1
        have hlen1 : u1.all_quad_node.length = t.all_quad_node.length := hmono1.1
        cases h2 : cleanAux fuel u1 ((f + 1 : Nat) : Int) with
        | none => rw [h2] at h; exact absurd h (by simp)
        | some p2 =>
        obtain ⟨u2, r2⟩ := p2
        rw [h2] at h
        dsimp only at h
        obtain ⟨hinv2, hmono2, hr2, hrank2, hstab2, hfp2⟩ :=
          ih u1 d (f + 1) u2 r2 hinv1 (by omega) h2
        have hlen2 : u2.all_quad_node.length = t.all_quad_node.length := by
          rw [hmono2.1, hlen1]
        cases h3 : cleanAux fuel u2 ((f + 2 : Nat) : Int) with
        | none => rw [h3] at h; exact absurd h (by simp)
        | some p3 =>
        obtain ⟨u3, r3⟩ := p3
        rw [h3] at h
        dsimp only at h
        obtain ⟨hinv3, hmono3, hr3, hrank3, hstab3, hfp3⟩ :=
          ih u2 d (f + 2) u3 r3 hinv2 (by omega) h3
        have hlen3 : u3.all_quad_node.length = t.all_quad_node.length := by
          rw [hmono3.1, hlen2]
        cases h4 : cleanAux fuel u3 ((f + 3 : Nat) : Int) with
        | none => rw [h4] at h; exact absurd h (by simp)
        | some p4 =>
        obtain ⟨u4, r4⟩ := p4
        rw [h4] at h
        dsimp only at h
        obtain ⟨hinv4, hmono4, hr4, hrank4, hstab4, hfp4⟩ :=
          ih u3 d (f + 3) u4 r4 hinv3 (by omega) h4
        have hlen4 : u4.all_quad_node.length = t.all_quad_node.length := by
          rw [hmono4.1, hlen3]
        -- sibling runs and deeper runs leave shallow slots alone
        have hkeep1 : ∀ j, j < t.all_quad_node.length → d j ≤ d i → j ≠ i →
            getN u1.all_quad_node j = getN t.all_quad_node j := by
          intro j hj hdj hji
          refine hfp1 j hj (by rw [hd 0 (by omega)]; omega) ?_
          intro he
          rw [he] at hdj
          rw [hd 0 (by omega)] at hdj
          omega
        have hkeep2 : ∀ j, j < t.all_quad_node.length → d j ≤ d i → j ≠ i →
            getN u2.all_quad_node j = getN t.all_quad_node j := by
          intro j hj hdj hji
          rw [show getN u2.all_quad_node j = getN u1.all_quad_node j from
            hfp2 j (by omega) (by rw [hd 1 (by omega)]; omega)
              (fun he => by rw [he, hd 1 (by omega)] at hdj; omega)]
          exact hkeep1 j hj hdj hji
        have hkeep3 : ∀ j, j < t.all_quad_node.length → d j ≤ d i → j ≠ i →
            getN u3.all_quad_node j = getN t.all_quad_node j := by
          intro j hj hdj hji
          rw [show getN u3.all_quad_node j = getN u2.all_quad_node j from
            hfp3 j (by omega) (by rw [hd 2 (by omega)]; omega)
              (fun he => by rw [he, hd 2 (by omega)] at hdj; omega)]
          exact hkeep2 j hj hdj hji
        have hkeep4 : ∀ j, j < t.all_quad_node.length → d j ≤ d i → j ≠ i →
            getN u4.all_quad_node j = getN t.all_quad_node j := by
          intro j hj hdj hji
          rw [show getN u4.all_quad_node j = getN u3.all_quad_node j from
            hfp4 j (by omega) (by rw [hd 3 (by omega)]; omega)
              (fun he => by rw [he, hd 3 (by omega)] at hdj; omega)]
          exact hkeep3 j hj hdj hji
        have hikeep1 : getN u1.all_quad_node i = getN t.all_quad_node i :=
          hfp1 i hi (by rw [hd 0 (by omega)]; omega)
            (fun he => hdne 0 (by omega) he.symm)
        have hikeep2 : getN u2.all_quad_node i = getN u1.all_quad_node i :=
          hfp2 i (by rw [hlen1]; exact hi) (by rw [hd 1 (by omega)]; omega)
            (fun he => hdne 1 (by omega) he.symm)
        have hikeep3 : getN u3.all_quad_node i = getN u2.all_quad_node i :=
          hfp3 i (by rw [hlen2]; exact hi) (by rw [hd 2 (by omega)]; omega)
            (fun he => hdne 2 (by omega) he.symm)
        have hikeep4 : getN u4.all_quad_node i = getN u3.all_quad_node i :=
          hfp4 i (by rw [hlen3]; exact hi) (by rw [hd 3 (by omega)]; omega)
            (fun he => hdne 3 (by omega) he.symm)
        have hikeep : getN u4.all_quad_node i = getN t.all_quad_node i :=
          ((hikeep4.trans hikeep3).trans hikeep2).trans hikeep1
        have hmono14 : Mono u1 u4 := Mono_trans hmono2 (Mono_trans hmono3 hmono4)
        have hmono24 : Mono u2 u4 := Mono_trans hmono3 hmono4
        have hmonoT4 : Mono t u4 := Mono_trans hmono1 hmono14
        -- the four children are stable in the final state, with bounded ranks
        have hstabs : ∀ k, k < 4 → stableN fuel u4 (f + k) := by
          intro k hk
          interval_cases k
          · exact stable_mono fuel u1 u4 (f + 0) hstab1 hmono14
          · exact stable_mono fuel u2 u4 (f + 1) hstab2 hmono24
          · exact stable_mono fuel u3 u4 (f + 2) hstab3 hmono4
          · exact hstab4
        have hranks : ∀ k, k < 4 → rank u4 (f + k) ≤ 1 :=
          fun k hk => rankB_le_one _
        have hrank40 : rank u4 (f + 0) ≤ r1 :=
          le_trans (Mono_rank hmono14 (by rw [hlen1]; omega)) hrank1
        have hrank41 : rank u4 (f + 1) ≤ r2 :=
          le_trans (Mono_rank hmono24 (by rw [hlen2]; omega)) hrank2
        have hrank42 : rank u4 (f + 2) ≤ r3 :=
          le_trans (Mono_rank hmono4 (by rw [hlen3]; omega)) hrank3
        have hrank43 : rank u4 (f + 3) ≤ r4 := hrank4
        by_cases hs : r1 + r2 + r3 + r4 = 4
        · -- all four children reported empty: the block is freed
          rw [if_pos hs] at h
          have hu4u : (getN u4.all_quad_node i).in_use = true := by rw [hikeep]; exact hu
          have hu4b : (getN u4.all_quad_node i).is_branch = true := by rw [hikeep]; exact hbr
          have hu4f : (getN u4.all_quad_node i).first_child = ((f : Nat) : Int) := by
            rw [hikeep]; exact hfc
          have hu4p : (getN u4.all_quad_node f).parent_index = i := by
            have hpar := MonoN.parent (hmonoT4.2 (f + 0) (by omega))
            have := (hfch 0 (by omega)).2
            simpa using hpar.trans this
          obtain ⟨t5, hrun5, hlen5, hfree5, hnum5, hp5, hblock5, hother5, hinv5, hmono5⟩ :=
            set_free_ok u4 d i f hinv4 (by omega) hu4u hu4b hu4f hu4p
          rw [hrun5] at h
          dsimp only at h
          have hf1 : 1 ≤ f := by omega
          by_cases hroot : i = 0
          · subst hroot
            rw [if_pos (rfl : (0 : Nat) = 0)] at h
            rw [hp5] at h
            dsimp only at h
            have h6 := Option.some.inj h
            rw [Prod.mk.injEq] at h6
            obtain ⟨rfl, rfl⟩ := h6
            have hq6 : getN (setN t5.all_quad_node 0
                (⟨1, (getN u4.all_quad_node 0).parent_index, 0, true⟩ : QuadNode)) 0 =
                ⟨1, (getN u4.all_quad_node 0).parent_index, 0, true⟩ :=
              getN_setN_self _ _ _ (by rw [hlen5, hlen4]; exact hi)
            have hq6ne : ∀ j : Nat, j ≠ 0 →
                getN (setN t5.all_quad_node 0
                  (⟨1, (getN u4.all_quad_node 0).parent_index, 0, true⟩ : QuadNode)) j =
                getN t5.all_quad_node j :=
              fun j hj => getN_setN_ne _ _ _ _ (fun hh => hj hh.symm)
            refine ⟨?_, ?_, by omega, ?_, ?_, ?_⟩
            · -- the invariant after the root write
              refine ⟨?_, ?_, ?_, ?_⟩
              · show (setN t5.all_quad_node 0
                  (⟨1, (getN u4.all_quad_node 0).parent_index, 0, true⟩ : QuadNode)).length
                    % 4 = 1
                rw [length_setN, hlen5, hlen4]
                exact hinv.lenmod
              · show branchOk (setN t5.all_quad_node 0
                  (⟨1, (getN u4.all_quad_node 0).parent_index, 0, true⟩ : QuadNode))
                intro i2 hi2 hu2 hb2
                rw [length_setN] at hi2
                by_cases hi20 : i2 = 0
                · exfalso
                  subst hi20
                  rw [hq6] at hb2
                  simp [QuadNode.is_branch] at hb2
                · rw [hq6ne i2 hi20] at hu2 hb2 ⊢
                  obtain ⟨g, hgc, hg4, hglt, hgch⟩ := hinv5.branches i2 hi2 hu2 hb2
                  refine ⟨g, hgc, hg4, by rw [length_setN]; exact hglt, ?_⟩
                  intro k hk
                  rw [hq6ne (g + k) (by omega)]
                  exact hgch k hk
              · obtain ⟨L5, hL5⟩ := hinv5.chain
                refine ⟨L5, ?_⟩
                show FreeChain (setN t5.all_quad_node 0
                  (⟨1, (getN u4.all_quad_node 0).parent_index, 0, true⟩ : QuadNode))
                  t5.free_quad_node_index L5
                refine FreeChain_congr (length_setN ..) hL5 ?_
                intro b2 hb2 k hk
                have hb24 := FreeChain_mem_mod hL5 b2 hb2
                exact hq6ne (b2 + k) (by omega)
              · show ChildDepth (setN t5.all_quad_node 0
                  (⟨1, (getN u4.all_quad_node 0).parent_index, 0, true⟩ : QuadNode)) d
                intro i2 g hi2 hu2 hb2 hg2 k hk
                rw [length_setN] at hi2
                by_cases hi20 : i2 = 0
                · exfalso
                  subst hi20
                  rw [hq6] at hb2
                  simp [QuadNode.is_branch] at hb2
                · rw [hq6ne i2 hi20] at hu2 hb2 hg2
                  exact hinv5.depth i2 g hi2 hu2 hb2 hg2 k hk
            · -- monotonicity across collapse and quirk
              refine Mono_trans hmonoT4 ⟨?_, ?_⟩
              · show (setN t5.all_quad_node 0
                  (⟨1, (getN u4.all_quad_node 0).parent_index, 0, true⟩ : QuadNode)).length
                    = u4.all_quad_node.length
                rw [length_setN, hlen5]
              · intro j hj
                by_cases hj0 : j = 0
                · subst hj0
                  show MonoN (getN u4.all_quad_node 0) (getN (setN t5.all_quad_node 0
                    (⟨1, (getN u4.all_quad_node 0).parent_index, 0, true⟩ : QuadNode)) 0)
                  rw [hq6]
                  exact Or.inr (Or.inr ⟨hu4u, hu4b, 1, rfl⟩)
                · show MonoN (getN u4.all_quad_node j) (getN (setN t5.all_quad_node 0
                    (⟨1, (getN u4.all_quad_node 0).parent_index, 0, true⟩ : QuadNode)) j)
                  by_cases hjb : ∃ k, k < 4 ∧ j = f + k
                  · obtain ⟨k, hk, rfl⟩ := hjb
                    rw [hq6ne (f + k) (by omega), hblock5 k hk]
                    exact Or.inr (Or.inl ⟨_, _, rfl⟩)
                  · have hjb2 : ∀ k, k < 4 → j ≠ f + k := fun k hk he => hjb ⟨k, hk, he⟩
                    rw [hq6ne j hj0, hother5 j hj hj0 hjb2]
                    exact MonoN.same _
            · -- rank of the root afterwards
              exact rankB_le_one _
            · -- the root is now a stable empty leaf
              refine ⟨?_, Or.inr (Or.inl ⟨?_, ?_⟩)⟩
              · show 0 < (setN t5.all_quad_node 0
                  (⟨1, (getN u4.all_quad_node 0).parent_index, 0, true⟩ : QuadNode)).length
                rw [length_setN, hlen5, hlen4]
                exact hi
              · show cleanGuard (getN (setN t5.all_quad_node 0
                  (⟨1, (getN u4.all_quad_node 0).parent_index, 0, true⟩ : QuadNode)) 0) = false
                rw [hq6]
                simp [cleanGuard, QuadNode.is_leaf]
              · show (getN (setN t5.all_quad_node 0
                  (⟨1, (getN u4.all_quad_node 0).parent_index, 0, true⟩ : QuadNode)) 0).is_branch
                    = false
                rw [hq6]
                simp [QuadNode.is_branch]
            · -- slots at rank at most the root's are untouched
              intro j hj hdj hji
              show getN (setN t5.all_quad_node 0
                (⟨1, (getN u4.all_quad_node 0).parent_index, 0, true⟩ : QuadNode)) j =
                getN t.all_quad_node j
              rw [hq6ne j hji, hother5 j (by rw [hlen4]; exact hj) hji
                (fun k hk he => by rw [he, hd k hk] at hdj; omega)]
              exact hkeep4 j hj hdj hji
          · rw [if_neg hroot] at h
            have hte : t5 = t2 ∧ (1 : Nat) = r := ⟨congrArg Prod.fst (Option.some.inj h),
              congrArg Prod.snd (Option.some.inj h)⟩
            obtain ⟨rfl, rfl⟩ := hte
            refine ⟨hinv5, Mono_trans hmonoT4 hmono5, by omega, ?_, ?_, ?_⟩
            · show rankB (getN t5.all_quad_node i) ≤ 1
              exact rankB_le_one _
            · refine ⟨by rw [hlen5, hlen4]; exact hi, Or.inr (Or.inl ⟨?_, ?_⟩)⟩
              · rw [hp5]
                simp [cleanGuard, QuadNode.is_leaf]
              · rw [hp5]
                simp [QuadNode.is_branch]
            · intro j hj hdj hji
              rw [hother5 j (by rw [hlen4]; exact hj) hji
                (fun k hk he => by rw [he, hd k hk] at hdj; omega)]
              exact hkeep4 j hj hdj hji
        · -- not all children empty: nothing is freed at this level
          rw [if_neg hs] at h
          have hte : u4 = t2 ∧ (1 : Nat) = r := ⟨congrArg Prod.fst (Option.some.inj h),
            congrArg Prod.snd (Option.some.inj h)⟩
          obtain ⟨rfl, rfl⟩ := hte
          refine ⟨hinv4, hmonoT4, by omega, rankB_le_one _, ?_, hkeep4⟩
          refine ⟨by rw [hlen4]; exact hi, Or.inr (Or.inr ⟨?_, ?_, f, ?_, hstabs, ?_⟩)⟩
          · rw [hikeep]; exact hgf
          · rw [hikeep]; exact hbr
          · rw [hikeep]; exact hfc
          · have b0 := hrank40
            have b1 := hrank41
            have b2 := hrank42
            have b3 := hrank43
            have c1 := hr1
            have c2 := hr2
            have c3 := hr3
            have c4 := hr4
            omega
      · -- in use, not a leaf holding entities, not a branch: an empty(ish) leaf
        rw [if_neg hbr] at h
        have hte : t = t2 ∧ (1 : Nat) = r := ⟨congrArg Prod.fst (Option.some.inj h),
          congrArg Prod.snd (Option.some.inj h)⟩
        obtain ⟨rfl, rfl⟩ := hte
        have hbrf : (getN t.all_quad_node i).is_branch = false := by
          revert hbr; cases (getN t.all_quad_node i).is_branch <;> simp
        refine ⟨hinv, Mono.refl t, by omega, ?_, ⟨hi, Or.inr (Or.inl ⟨hgf, hbrf⟩)⟩,
          fun j _ _ _ => rfl⟩
        show rank t i ≤ 1
        exact rankB_le_one _

/-! #### The invariant holds on every reachable state -/

theorem init_inv (s : ℚ × ℚ) (md : Nat) :
    InvP (QuadTree.init s md) (fun _ => 0) := by
  refine ⟨rfl, ?_, ⟨[], FreeChain.nil⟩, ?_⟩
  · intro i hi hu hb
    have hi1 : i < 1 := hi
    have hi0 : i = 0 := by omega
    subst hi0
    have hroot : getN (QuadTree.init s md).all_quad_node 0 = ({} : QuadNode) := rfl
    rw [hroot] at hb
    exact absurd hb (by decide)
  · intro i g hi hu hb hg k hk
    have hi1 : i < 1 := hi
    have hi0 : i = 0 := by omega
    subst hi0
    have hroot : getN (QuadTree.init s md).all_quad_node 0 = ({} : QuadNode) := rfl
    rw [hroot] at hb
    exact absurd hb (by decide)

theorem Reachable_inv : ∀ {t : QuadTree}, Reachable t → Inv t := by
  intro t h
  induction h with
  | init s md => exact ⟨fun _ => 0, init_inv s md⟩
  | split ht hlt hu hl hsb ih =>
    obtain ⟨d, hinv⟩ := ih
    exact set_branch_inv _ d _ _ hinv hlt hu hl hsb
  | free ht hpre hrun ih =>
    rename_i t1 t2 f
    obtain ⟨d, hinv⟩ := ih
    obtain ⟨hflt, hplt, hpu, hpb, hpf⟩ := hpre
    obtain ⟨t5, hrun5, _, _, _, _, _, _, hinv5, _⟩ :=
      set_free_ok t1 d ((getN t1.all_quad_node f).parent_index) f hinv
        hplt hpu hpb hpf rfl
    rw [hrun5] at hrun
    have ht52 : t5 = t2 := Except.ok.inj hrun
    subst ht52
    exact ⟨d, hinv5⟩
  | clean ht hcl ih =>
    rename_i t1 t2
    obtain ⟨d, hinv⟩ := ih
    have hlen0 : 0 < t1.all_quad_node.length := by
      have := hinv.lenmod
      omega
    unfold clean_up at hcl
    cases hc : cleanAux (t1.all_quad_node.length + 1) t1 0 with
    | none => rw [hc] at hcl; exact absurd hcl (by simp)
    | some p =>
      obtain ⟨t2', r⟩ := p
      rw [hc] at hcl
      simp only [Option.map_some'] at hcl
      have ht2 : t2' = t2 := Option.some.inj hcl
      subst ht2
      obtain ⟨hinv2, _, _, _, _, _⟩ :=
        cleanAux_main (t1.all_quad_node.length + 1) t1 d 0 t2' r hinv hlen0 hc
      exact ⟨d, hinv2⟩

/-- `qtB1` is produced by splitting the root of a fresh `(16,16)` tree. -/
theorem Reachable_qtB1 : Reachable qtB1 :=
  Reachable.split (Reachable.init (16, 16) 12)
    (show 0 < qtB.all_quad_node.length by decide)
    (show (getN qtB.all_quad_node 0).in_use = true by with_unfolding_all rfl)
    (show (getN qtB.all_quad_node 0).is_leaf = true by with_unfolding_all rfl)
    (show set_branch qtB 0 = some qtB1 by with_unfolding_all rfl)

/-- C4: on every tree state reachable by the tree's operations — a fresh tree,
`set_branch` splits (fresh or reusing a free-list block), contract-respecting
`set_free_quad_node` calls, and `clean_up` passes — every in-use branch node
has its 4 children at the contiguous in-range indices
`first_child .. first_child+3`, each child `in_use` and carrying the branch's
own index as `parent_index`. -/
theorem claim4_branch_children (t : QuadTree) (ht : Reachable t) :
    ∀ i, i < t.all_quad_node.length →
      (getN t.all_quad_node i).in_use = true →
      (getN t.all_quad_node i).is_branch = true →
      ∃ f : Nat, (getN t.all_quad_node i).first_child = (f : Int) ∧
        f + 3 < t.all_quad_node.length ∧
        ∀ k, k < 4 → (getN t.all_quad_node (f + k)).in_use = true ∧
          (getN t.all_quad_node (f + k)).parent_index = i := by
  obtain ⟨d, hinv⟩ := Reachable_inv ht
  intro i hi hu hb
  obtain ⟨f, hfc, _, hflt, hfch⟩ := hinv.branches i hi hu hb
  exact ⟨f, hfc, hflt, hfch⟩

/-- C4, witness: the invariant applied to the root branch of `qtB1`. -/
theorem claim4_witness :
    ∃ f : Nat, (getN qtB1.all_quad_node 0).first_child = (f : Int) ∧
      f + 3 < qtB1.all_quad_node.length ∧
      ∀ k, k < 4 → (getN qtB1.all_quad_node (f + k)).in_use = true ∧
        (getN qtB1.all_quad_node (f + k)).parent_index = 0 :=
  claim4_branch_children qtB1 Reachable_qtB1 0 (by decide)
    (by with_unfolding_all rfl) (by with_unfolding_all rfl)

/-- C9: on every reachable tree state, `clean_up` is idempotent — a second
pass returns exactly the state (all node records, free-list head, in-use
counter) the first pass produced. -/
theorem claim9_clean_up_idempotent (t t2 : QuadTree) (ht : Reachable t)
    (h : clean_up t = some t2) : clean_up t2 = some t2 := by
  obtain ⟨d, hinv⟩ := Reachable_inv ht
  have hlen0 : 0 < t.all_quad_node.length := by
    have := hinv.lenmod
    omega
  unfold clean_up at h
  cases hc : cleanAux (t.all_quad_node.length + 1) t 0 with
  | none => rw [hc] at h; exact absurd h (by simp)
  | some p =>
    obtain ⟨t2', r⟩ := p
    rw [hc] at h
    simp only [Option.map_some'] at h
    have ht2 : t2' = t2 := Option.some.inj h
    rw [← ht2]
    obtain ⟨_, hmono, _, _, hstab, _⟩ :=
      cleanAux_main (t.all_quad_node.length + 1) t d 0 t2' r hinv hlen0 hc
    unfold clean_up
    rw [hmono.1, show (0 : Int) = ((0 : Nat) : Int) from rfl,
      stable_clean _ _ _ hstab]
    rfl

/-- C9, witness: one cleanup pass turns `qtB1` into `qtB2`, and a second pass
on `qtB2` returns `qtB2` itself. -/
theorem claim9_witness : clean_up qtB2 = some qtB2 :=
  claim9_clean_up_idempotent qtB1 qtB2 Reachable_qtB1
    (by with_unfolding_all rfl)

end PyTree
